import Mathlib

/-!
Verification of the catalog-ingestion pipeline (src/ingest_kaggle.py).

The pipeline is shallowly embedded: Python dicts become insertion-ordered
association lists, Python sets become finite sets over strings, external
record streams become Lean lists, and Python floats are modelled as exact
rationals.  Every definition mirrors the control flow of the corresponding
Python function; early exits of for-loops become recursion with explicit
stop conditions.
-/

set_option maxRecDepth 10000

namespace Shopper

/-- Raw metadata record, as produced by a metadata source stream.
Optional fields model keys that may be absent (Python dict.get returning None). -/
structure MetaItem where
  title : Option String
  price : Option String
  parent_asin : Option String
  categories : List String
  description : List String
  features : List String
  average_rating : Option ℚ
  rating_number : Option Nat
  store : Option String
deriving DecidableEq

/-- Raw review record, as produced by a review source stream. -/
structure ReviewItem where
  parent_asin : Option String
  rating : Option ℚ
  rtitle : Option String
  text : Option String
  verified_purchase : Bool
  helpful_vote : Option Int
deriving DecidableEq

/-- A source descriptor: a format tag and a path (the deduplication key). -/
structure Source where
  fmt : String
  path : String
deriving DecidableEq

/-- One category configuration from CATEGORY_CONFIGS. -/
structure Cat where
  name : String
  metaSources : List Source
  reviewSources : List Source
  keywords : List String
deriving DecidableEq

/-- Lower-casing (ASCII), character by character. -/
def lowerStr (s : String) : String :=
  ⟨s.toList.map Char.toLower⟩

/-- Leading and trailing whitespace removed, modelling str.strip(). -/
def trimStr (s : String) : String :=
  ⟨((s.toList.dropWhile Char.isWhitespace).reverse.dropWhile Char.isWhitespace).reverse⟩

/-- Join a list of strings with a separator character. -/
def joinWith (sep : Char) : List String → String
  | [] => ""
  | [s] => s
  | s :: rest => s ++ ⟨[sep]⟩ ++ joinWith sep rest

/-- Keep only digits and the decimal point, modelling re.sub applied
with the pattern that removes every non-digit non-dot character. -/
def stripNonNumeric (s : String) : String :=
  ⟨s.toList.filter (fun c => c.isDigit || c = '.')⟩

/-- Value of a (big-endian) digit character list, read as a natural number. -/
def digitsVal (l : List Char) : ℕ :=
  l.foldl (fun a c => 10 * a + (c.toNat - 48)) 0

/-- Split a character list at every dot, modelling str.split applied with a
dot separator. -/
def splitDotAux : List Char → List Char → List (List Char)
  | [], acc => [acc.reverse]
  | c :: rest, acc =>
    if c = '.' then acc.reverse :: splitDotAux rest []
    else splitDotAux rest (c :: acc)

/-- Parts of a character list between dots. -/
def splitDot (l : List Char) : List (List Char) :=
  splitDotAux l []

/-- Python float(text) on a string made only of digits and dots: defined when
there is at most one dot and at least one digit; the result is exact here
(rationals model floats), so intPart.fracPart denotes the fraction with the
concatenated digits over ten to the fractional length. -/
def floatOfCleaned (s : String) : Option ℚ :=
  let chars := s.toList
  if (chars.filter (fun c => c = '.')).length ≤ 1 ∧ chars.any Char.isDigit then
    match splitDot chars with
    | [i] => some (mkRat (digitsVal i) 1)
    | [i, f] => some (mkRat (digitsVal (i ++ f)) (10 ^ f.length))
    | _ => none
  else none

/-- parse_price from src/ingest_kaggle.py: None or "None" input fails, all
characters except digits and the dot are stripped, the remainder must be a
nonempty numeric literal with a positive value. -/
def parse_price (price : Option String) : Option ℚ :=
  match price with
  | none => none
  | some s =>
    if s = "" ∨ s = "None" then none
    else
      let cleaned := stripNonNumeric s
      if cleaned = "" then none
      else
        match floatOfCleaned cleaned with
        | none => none
        | some v => if 0 < v then some v else none

/-- Second definition, following the specification text for parse_price word
by word (section 4.1 of the spec): strip all characters except digits and the
decimal point; return missing on empty result, non-numeric result, or a
numeric value that is not positive. Used only to compare against the
source-derived parse_price. -/
def parse_price_spec (price : Option String) : Option ℚ :=
  match price with
  | none => none
  | some s =>
    let cleaned := stripNonNumeric s
    if cleaned = "" then none
    else
      match floatOfCleaned cleaned with
      | none => none
      | some v => if v ≤ 0 then none else some v

/-- Does the second list start with the first list? -/
def leadsWith : List Char → List Char → Bool
  | [], _ => true
  | _ :: _, [] => false
  | a :: as, b :: bs => a = b && leadsWith as bs

/-- Contiguous-substring test on character lists, modelling the Python
membership test of one string inside another. -/
def hasSub (needle : List Char) : List Char → Bool
  | [] => needle.isEmpty
  | c :: rest => leadsWith needle (c :: rest) || hasSub needle rest

/-- matches_keywords from src/ingest_kaggle.py: case-insensitive substring
test of each keyword against the title or the flattened category text. -/
def matches_keywords (item : MetaItem) (keywords : List String) : Bool :=
  let title := lowerStr (item.title.getD "")
  let catText := lowerStr (joinWith ' ' item.categories)
  keywords.any (fun kw =>
    hasSub (lowerStr kw).toList title.toList || hasSub (lowerStr kw).toList catText.toList)

/-- Is the title missing or whitespace-only (Python: not title or not title.strip())? -/
def blankTitle : Option String → Bool
  | none => true
  | some t => trimStr t = ""

/-- Parent key of a metadata record; Python treats both a missing key and an
empty string as absent (if not parent_asin). -/
def itemKey (item : MetaItem) : Option String :=
  match item.parent_asin with
  | none => none
  | some k => if k = "" then none else some k

/-- The global validity filter of the metadata pass: usable title, usable
price and present parent key. -/
def validMeta (item : MetaItem) : Bool :=
  !blankTitle item.title && (parse_price item.price).isSome && (itemKey item).isSome

/-! Association lists model Python dicts: insertion-ordered, updates in
place, new keys appended at the end. -/

/-- Lookup in an association list (first binding wins, as in a dict). -/
def lookupAssoc (l : List (String × α)) (k : String) : Option α :=
  (l.find? (fun e => e.1 = k)).map (fun e => e.2)

/-- Dict assignment: replace the value in place when the key is present,
otherwise append the new binding at the end. -/
def updateAssoc (l : List (String × α)) (k : String) (v : α) : List (String × α) :=
  if l.any (fun e => e.1 = k) then l.map (fun e => if e.1 = k then (k, v) else e)
  else l ++ [(k, v)]

/-- Value of a nested dict entry, defaulting to the empty dict. -/
def getMap (m : List (String × List (String × α))) (n : String) : List (String × α) :=
  (lookupAssoc m n).getD []

/-- State of one metadata streaming pass: per-category collected products and
the set of categories already at capacity. -/
structure MetaState where
  results : List (String × List (String × MetaItem))
  full : Finset String
deriving DecidableEq

/-- Body of the per-category loop of stream_metadata_multi for one record:
skip categories that are full or already hold this key, insert on keyword
match, and mark the category full once its limit is reached. -/
def catStep (limits : String → ℕ) (key : String) (item : MetaItem)
    (st : MetaState) (c : Cat) : MetaState :=
  if c.name ∈ st.full ∨ (getMap st.results c.name).any (fun e => e.1 = key) then st
  else if matches_keywords item c.keywords then
    { results := updateAssoc st.results c.name (getMap st.results c.name ++ [(key, item)])
      full := if limits c.name ≤ (getMap st.results c.name ++ [(key, item)]).length then
          insert c.name st.full
        else st.full }
  else st

/-- Processing of a single record by stream_metadata_multi: the global
validity checks, then the per-category loop. -/
def metaStep (cfgs : List Cat) (limits : String → ℕ) (st : MetaState)
    (item : MetaItem) : MetaState :=
  if blankTitle item.title then st
  else if (parse_price item.price).isNone then st
  else
    match itemKey item with
    | none => st
    | some key => cfgs.foldl (catStep limits key item) st

/-- The streaming loop of stream_metadata_multi.  A record that fails the
validity checks is skipped without reaching the early-exit test (the Python
continue statements jump over it); after a processed record the pass stops as
soon as every category is full. -/
def metaLoop (cfgs : List Cat) (limits : String → ℕ) :
    List MetaItem → MetaState → MetaState
  | [], st => st
  | item :: rest, st =>
    if validMeta item then
      if cfgs.length ≤ (metaStep cfgs limits st item).full.card then
        metaStep cfgs limits st item
      else metaLoop cfgs limits rest (metaStep cfgs limits st item)
    else metaLoop cfgs limits rest st

/-- stream_metadata_multi from src/ingest_kaggle.py: one pass over one
metadata stream, serving every category handed in. -/
def streamMetadataMulti (cfgs : List Cat) (limits : String → ℕ)
    (stream : List MetaItem) : MetaState :=
  metaLoop cfgs limits stream ⟨cfgs.map (fun c => (c.name, [])), ∅⟩

/-- One entry of the metadata-phase index: a unique source path, the source
descriptor last written for it, and the categories that use it. -/
structure MetaIndexEntry where
  path : String
  src : Source
  cats : List Cat
deriving DecidableEq

/-- Record one (category, source) pair in the metadata index, keyed by path:
the source value is overwritten, the category appended if new. -/
def insertMetaSource (idx : List MetaIndexEntry) (c : Cat) (s : Source) :
    List MetaIndexEntry :=
  if idx.any (fun e => e.path = s.path) then
    idx.map (fun e =>
      if e.path = s.path then
        { e with src := s
                 cats := if e.cats.any (fun d => d.name = c.name) then e.cats
                         else e.cats ++ [c] }
      else e)
  else idx ++ [⟨s.path, s, [c]⟩]

/-- The metadata-phase index of main: path to source and consuming
categories, built in first-insertion order. -/
def buildMetaIndex (cats : List Cat) : List MetaIndexEntry :=
  cats.foldl (fun idx c => c.metaSources.foldl (fun j s => insertMetaSource j c s) idx) []

/-- State of the metadata phase of main: the per-category collected products
and the log of source paths for which the multiplexer was invoked. -/
structure MetaPhaseState where
  products : List (String × List (String × MetaItem))
  log : List String
deriving DecidableEq

/-- Merge of one category of a pass result into all_products: at most the
remaining capacity is taken, and each binding is assigned dict-style. -/
def mergeCat (P : ℕ) (batch : List (String × MetaItem))
    (cur : List (String × MetaItem)) : List (String × MetaItem) :=
  (batch.take (P - cur.length)).foldl (fun acc e => updateAssoc acc e.1 e.2) cur

/-- The categories of an index entry that are still under capacity. -/
def activeCats (P : ℕ) (products : List (String × List (String × MetaItem)))
    (e : MetaIndexEntry) : List Cat :=
  e.cats.filter (fun c => (getMap products c.name).length < P)

/-- The result of the one multiplexer pass main runs for an index entry. -/
def entryBatch (P : ℕ) (mstreams : String → List MetaItem)
    (products : List (String × List (String × MetaItem))) (e : MetaIndexEntry) : MetaState :=
  streamMetadataMulti (activeCats P products e)
    (fun n => P - (getMap products n).length) (mstreams e.path)

/-- Processing of one index entry by main: restrict to still-active
categories, invoke the multiplexer once when any remain, and merge the batch. -/
def metaPhaseStep (P : ℕ) (mstreams : String → List MetaItem)
    (st : MetaPhaseState) (e : MetaIndexEntry) : MetaPhaseState :=
  if (activeCats P st.products e).isEmpty then st
  else
    { products := (activeCats P st.products e).foldl (fun pr c =>
        updateAssoc pr c.name
          (mergeCat P (getMap (entryBatch P mstreams st.products e).results c.name)
            (getMap pr c.name))) st.products
      log := st.log ++ [e.path] }

/-- Phase 1 of main: one pass per unique metadata source path. -/
def metaPhase (cats : List Cat) (P : ℕ) (mstreams : String → List MetaItem) :
    MetaPhaseState :=
  (buildMetaIndex cats).foldl (metaPhaseStep P mstreams)
    ⟨cats.map (fun c => (c.name, [])), []⟩

/-- State of one review streaming pass: candidate lists per parent key, the
set of satisfied keys, and the number of records read. -/
structure RevState where
  candidates : List (String × List ReviewItem)
  satisfied : Finset String
  scanned : ℕ
deriving DecidableEq

/-- Appending to a defaultdict(list): create the empty list on first touch. -/
def appendCandidate (l : List (String × List ReviewItem)) (k : String)
    (r : ReviewItem) : List (String × List ReviewItem) :=
  if l.any (fun e => e.1 = k) then l.map (fun e => if e.1 = k then (e.1, e.2 ++ [r]) else e)
  else l ++ [(k, [r])]

/-- The streaming loop of fetch_reviews_multi.  A record whose key is not
requested or already satisfied is skipped by a continue that jumps over both
stop checks; only after a kept record does the loop test full satisfaction and
then the max_scan ceiling. -/
def fetchLoop (asinSet : Finset String) (perProduct maxScan : ℕ) :
    List ReviewItem → RevState → RevState
  | [], st => st
  | item :: rest, st =>
    let scanned := st.scanned + 1
    match item.parent_asin with
    | none => fetchLoop asinSet perProduct maxScan rest { st with scanned := scanned }
    | some asin =>
      if asin ∉ asinSet ∨ asin ∈ st.satisfied then
        fetchLoop asinSet perProduct maxScan rest { st with scanned := scanned }
      else
        let cands := appendCandidate st.candidates asin item
        let sat := if perProduct ≤ ((lookupAssoc cands asin).getD []).length
                   then insert asin st.satisfied else st.satisfied
        let st' : RevState := ⟨cands, sat, scanned⟩
        if asinSet.card ≤ sat.card then st'
        else if maxScan ≤ scanned then st'
        else fetchLoop asinSet perProduct maxScan rest st'

/-- Sort key of a review: verified purchases first, then helpful votes
(Python: (1 if verified_purchase else 0, helpful_vote or 0)). -/
def revKey (r : ReviewItem) : ℕ × Int :=
  (if r.verified_purchase then 1 else 0, r.helpful_vote.getD 0)

/-- Boolean lexicographic order on review sort keys. -/
def keyLe (a b : ℕ × Int) : Bool :=
  a.1 < b.1 || (a.1 = b.1 && a.2 ≤ b.2)

/-- Descending comparison used by the review sort: r may come before s when
the sort key of s is at most the sort key of r. -/
def revGe (r s : ReviewItem) : Prop :=
  keyLe (revKey s) (revKey r) = true

instance : DecidableRel revGe := fun r s => by
  unfold revGe; infer_instance

/-- Sort candidates by (verified, helpful votes) descending.  Python's
list.sort with reverse=True is a stable descending sort; a stable sort is the
unique order-preserving-on-ties sorted permutation, and insertion sort is
stable, so this is extensionally the same function. -/
def sortReviews (l : List ReviewItem) : List ReviewItem :=
  l.insertionSort revGe

/-- fetch_reviews_multi from src/ingest_kaggle.py: empty request short
circuit, one streaming pass, then per key a descending sort truncated to the
per-product cap. -/
def fetchReviewsMulti (stream : List ReviewItem) (asinSet : Finset String)
    (perProduct maxScan : ℕ) : List (String × List ReviewItem) :=
  if asinSet = ∅ then []
  else
    let st := fetchLoop asinSet perProduct maxScan stream ⟨[], ∅, 0⟩
    st.candidates.map (fun e => (e.1, (sortReviews e.2).take perProduct))

/-- Default hard scan ceiling of the review pass. -/
def maxScanDefault : ℕ := 5000000

/-- One entry of the review-phase index: a unique source path, the source
descriptor last written for it, and the union of parent keys routed to it. -/
structure ReviewIndexEntry where
  path : String
  src : Source
  asins : Finset String
deriving DecidableEq

/-- Record one (key set, source) pair in the review index, keyed by path. -/
def insertReviewSource (idx : List ReviewIndexEntry) (asins : Finset String)
    (s : Source) : List ReviewIndexEntry :=
  if idx.any (fun e => e.path = s.path) then
    idx.map (fun e =>
      if e.path = s.path then { e with src := s, asins := e.asins ∪ asins } else e)
  else idx ++ [⟨s.path, s, asins⟩]

/-- The review-phase index of main: path to the set of parent keys whose
categories list that source. -/
def buildReviewIndex (cats : List Cat)
    (products : List (String × List (String × MetaItem))) : List ReviewIndexEntry :=
  cats.foldl (fun idx c =>
    let asins := ((getMap products c.name).map (fun e => e.1)).toFinset
    c.reviewSources.foldl (fun j s => insertReviewSource j asins s) idx) []

/-- State of the review phase of main: the accumulated reviews dict and the
log of (path, requested key set) pairs for which the multiplexer was invoked. -/
structure ReviewPhaseState where
  reviews : List (String × List ReviewItem)
  log : List (String × Finset String)
deriving DecidableEq

/-- The keys an index entry still needs: its key set minus the keys already
holding reviews. -/
def neededSet (e : ReviewIndexEntry) (reviews : List (String × List ReviewItem)) :
    Finset String :=
  e.asins \ (reviews.map (fun kv => kv.1)).toFinset

/-- Processing of one index entry by main: keys already holding reviews are
subtracted, the multiplexer is invoked once when any remain, and the batch is
merged dict-style. -/
def reviewPhaseStep (R : ℕ) (rstreams : String → List ReviewItem)
    (st : ReviewPhaseState) (e : ReviewIndexEntry) : ReviewPhaseState :=
  if neededSet e st.reviews = ∅ then st
  else
    { reviews := (fetchReviewsMulti (rstreams e.path) (neededSet e st.reviews) R
        maxScanDefault).foldl (fun acc kv => updateAssoc acc kv.1 kv.2) st.reviews
      log := st.log ++ [(e.path, neededSet e st.reviews)] }

/-- Phase 2 of main: one pass per unique review source path. -/
def reviewPhase (cats : List Cat) (R : ℕ) (rstreams : String → List ReviewItem)
    (products : List (String × List (String × MetaItem))) : ReviewPhaseState :=
  (buildReviewIndex cats products).foldl (reviewPhaseStep R rstreams) ⟨[], []⟩

/-- Output shape of one review inside a ProductRecord. -/
structure ReviewOut where
  rating : ℚ
  title : String
  text : String
  verified : Bool
  helpful_votes : Int
deriving DecidableEq

/-- Final catalog record. -/
structure ProductRecord where
  id : String
  parent_asin : String
  category : String
  title : String
  description : String
  base_price : Option ℚ
  rating : ℚ
  review_count : ℕ
  features : List String
  reviews : List ReviewOut
  store : String
  tags : List String
deriving DecidableEq

/-- Category slug: lower case, spaces replaced by underscores. -/
def catSlug (category : String) : String :=
  ⟨(lowerStr category).toList.map (fun c => if c = ' ' then '_' else c)⟩

/-- Big-endian decimal digit characters of a positive natural number, with
explicit fuel to keep the recursion structural. -/
def decChars : ℕ → ℕ → List Char
  | 0, _ => []
  | fuel + 1, n => if n = 0 then [] else decChars fuel (n / 10) ++ [Nat.digitChar (n % 10)]

/-- Big-endian decimal digit characters of a natural number. -/
def decStr (n : ℕ) : List Char :=
  if n = 0 then ['0'] else decChars n n

/-- Decimal rendering zero-padded to width three, modelling the Python
format specifier of the record id (03d). -/
def pad3 (n : ℕ) : String :=
  ⟨List.replicate (3 - (decStr n).length) '0' ++ decStr n⟩

/-- Rounding to one decimal place (floats are modelled as exact rationals):
the nearest multiple of one tenth, computed on numerator and denominator so
that twenty q num plus q den over two q den floors to the rounded tenths. -/
def round1 (q : ℚ) : ℚ :=
  Rat.divInt (Int.fdiv (20 * q.num + q.den) (2 * q.den)) 10

/-- transform_product from src/ingest_kaggle.py. -/
def transform_product (meta : MetaItem) (reviews : List ReviewItem)
    (category : String) (idx : ℕ) : ProductRecord :=
  { id := "prod_" ++ catSlug category ++ "_" ++ pad3 idx
    parent_asin := meta.parent_asin.getD ""
    category := category
    title := meta.title.getD ""
    description := trimStr (joinWith '\n' (meta.description.filter (fun s => s ≠ "")))
    base_price := parse_price meta.price
    rating := round1 (meta.average_rating.getD 0)
    review_count := meta.rating_number.getD 0
    features := (meta.features.filter (fun f => trimStr f ≠ "")).map trimStr
    reviews := reviews.map (fun r =>
      ⟨r.rating.getD 0, r.rtitle.getD "", r.text.getD "", r.verified_purchase,
       r.helpful_vote.getD 0⟩)
    store := meta.store.getD ""
    tags := [] }

/-- Reviews collected for one key, defaulting to none (all_reviews.get). -/
def lookupReviews (rv : List (String × List ReviewItem)) (k : String) :
    List ReviewItem :=
  (lookupAssoc rv k).getD []

/-- The enumerated entries of one category that survive the empty-review
filter, with their 1-based enumeration indices. -/
def emittedEntries (rv : List (String × List ReviewItem))
    (ps : List (String × MetaItem)) : List (ℕ × String × MetaItem) :=
  (List.enumFrom 1 ps).filter (fun e => !(lookupReviews rv e.2.1).isEmpty)

/-- Final records of one category, in enumeration order (phase 3 inner loop). -/
def catRecords (category : String) (rv : List (String × List ReviewItem))
    (ps : List (String × MetaItem)) : List ProductRecord :=
  (emittedEntries rv ps).map (fun e =>
    transform_product e.2.2 (lookupReviews rv e.2.1) category e.1)

/-- Phase 3 of main: concatenate category record lists in CLI category order. -/
def catalogPhase (catNames : List String)
    (products : List (String × List (String × MetaItem)))
    (rv : List (String × List ReviewItem)) : List ProductRecord :=
  catNames.foldl (fun acc c => acc ++ catRecords c rv (getMap products c)) []

/-- Result of one whole run of main. -/
structure RunResult where
  products : List (String × List (String × MetaItem))
  metaLog : List String
  reviews : List (String × List ReviewItem)
  reviewLog : List (String × Finset String)
  catalog : List ProductRecord
deriving DecidableEq

/-- The full pipeline of main, with the streams behind each source path as
explicit inputs (a path denotes one external record sequence). -/
def runPipeline (cats : List Cat) (P R : ℕ) (mstreams : String → List MetaItem)
    (rstreams : String → List ReviewItem) : RunResult :=
  let mp := metaPhase cats P mstreams
  let rp := reviewPhase cats R rstreams mp.products
  ⟨mp.products, mp.log, rp.reviews, rp.log,
   catalogPhase (cats.map (fun c => c.name)) mp.products rp.reviews⟩

/-! Helper lemmas. -/

theorem parse_price_eq_spec (p : Option String) : parse_price p = parse_price_spec p := by
  match p with
  | none => rfl
  | some s =>
    by_cases h0 : s = ""
    · subst h0; rfl
    · by_cases h1 : s = "None"
      · subst h1; decide
      · show (if s = "" ∨ s = "None" then none else _) = _
        rw [if_neg (by simp [h0, h1])]
        show _ = parse_price_spec (some s)
        unfold parse_price_spec
        by_cases hc : stripNonNumeric s = ""
        · simp only [hc]; rfl
        · simp only [hc, if_false]
          cases hf : floatOfCleaned (stripNonNumeric s) with
          | none => rfl
          | some v =>
            show (if 0 < v then some v else none) = (if v ≤ 0 then none else some v)
            rcases le_or_lt v 0 with hv | hv
            · rw [if_neg (not_lt.mpr hv), if_pos hv]
            · rw [if_pos hv, if_neg (not_le.mpr hv)]

theorem parse_price_pos {p : Option String} {v : ℚ} (h : parse_price p = some v) :
    0 < v := by
  match p with
  | none => exact absurd h (by simp [parse_price])
  | some s =>
    replace h : (if s = "" ∨ s = "None" then none
        else
          let cleaned := stripNonNumeric s
          if cleaned = "" then none
          else
            match floatOfCleaned cleaned with
            | none => none
            | some v => if 0 < v then some v else none) = some v := h
    by_cases h0 : s = "" ∨ s = "None"
    · rw [if_pos h0] at h; exact absurd h (by simp)
    · rw [if_neg h0] at h
      simp only [] at h
      by_cases hc : stripNonNumeric s = ""
      · simp only [hc, if_true] at h; exact absurd h (by simp)
      · simp only [hc, if_false] at h
        cases hf : floatOfCleaned (stripNonNumeric s) with
        | none => rw [hf] at h; exact absurd h (by simp)
        | some w =>
          rw [hf] at h
          replace h : (if 0 < w then some w else none) = some v := h
          by_cases hw : 0 < w
          · rw [if_pos hw] at h
            cases h; exact hw
          · rw [if_neg hw] at h; exact absurd h (by simp)

theorem metaStep_invalid (cfgs : List Cat) (limits : String → ℕ) (st : MetaState)
    (item : MetaItem) (h : validMeta item = false) :
    metaStep cfgs limits st item = st := by
  unfold metaStep
  split
  · rfl
  next hb =>
    split
    · rfl
    next hp =>
      cases hik : itemKey item with
      | none => rfl
      | some k =>
        exfalso
        have hb' : blankTitle item.title = false := by
          cases hB : blankTitle item.title
          · rfl
          · exact absurd hB hb
        have hp' : (parse_price item.price).isNone = false := by
          cases hP : (parse_price item.price).isNone
          · rfl
          · exact absurd hP hp
        unfold validMeta at h
        rw [hb', hik] at h
        cases hpp : parse_price item.price with
        | none => rw [hpp] at hp'; exact absurd hp' (by simp)
        | some w => rw [hpp] at h; simp at h

theorem metaLoop_filter (cfgs : List Cat) (limits : String → ℕ)
    (stream : List MetaItem) (st : MetaState) :
    metaLoop cfgs limits stream st = metaLoop cfgs limits (stream.filter validMeta) st := by
  induction stream generalizing st with
  | nil => rfl
  | cons item rest ih =>
    by_cases hv : validMeta item = true
    · rw [List.filter_cons_of_pos hv]
      show (if validMeta item = true then _ else _) = (if validMeta item = true then _ else _)
      rw [if_pos hv, if_pos hv]
      split
      · rfl
      · exact ih _
    · rw [List.filter_cons_of_neg (by simpa using hv)]
      show (if validMeta item = true then _ else _) = _
      rw [if_neg hv]
      exact ih st

/-! Concrete fixtures used by witnesses. -/

/-- A category used in concrete witness runs. -/
def wCat : Cat :=
  ⟨"Gaming Mice", [⟨"json", "pm"⟩], [⟨"json", "pr"⟩], ["mouse"]⟩

/-- A valid metadata record matching wCat, with the given key. -/
def wMeta (k : String) : MetaItem :=
  ⟨some "Esports Mouse Pro", some "$19.99", some k, [], [], [], none, none, none⟩

/-- A metadata record with a missing title (invalid). -/
def wMetaNoTitle : MetaItem :=
  ⟨none, some "$9.99", some "A3", [], [], [], none, none, none⟩

/-- A review record for the given key. -/
def wRev (k : String) (ver : Bool) (hv : Int) : ReviewItem :=
  ⟨some k, none, none, none, ver, some hv⟩

/-! Claim theorems. -/

/-- C9: parse_price strips every character except digits and the decimal
point and returns missing when the stripped result is empty, non-numeric, or
denotes a value that is not positive; the concrete examples of the spec hold
(prices are modelled as exact rationals). -/
theorem parse_price_correct :
    (∀ p, parse_price p = parse_price_spec p) ∧
    parse_price (some "$1,234.56") = some (1234.56 : ℚ) ∧
    parse_price (some "0") = none ∧
    parse_price (some "None") = none ∧
    parse_price (some "") = none := by
  refine ⟨parse_price_eq_spec, ?_, by decide, by decide, by decide⟩
  have h1 : parse_price (some "$1,234.56") = some (mkRat 123456 100) := by decide
  rw [h1]
  norm_num

/-- C3: the claim that the review pass stops as soon as the number of records
read reaches max_scan is violated by the code: the max_scan test sits after
the relevance filter, so records whose key is not requested never reach it.
With max_scan = 1 and a stream of three irrelevant records the loop reads all
three.  Likewise max_scan = 0 does not give an empty result map: a relevant
first record is kept.  This contradicts the documented contract of
fetch_reviews_multi (a hard limit on rows read). -/
theorem fetch_reviews_max_scan_divergence :
    (fetchLoop {"A"} 1 1
      [⟨some "B", none, none, none, false, none⟩,
       ⟨some "B", none, none, none, false, none⟩,
       ⟨some "B", none, none, none, false, none⟩] ⟨[], ∅, 0⟩).scanned = 3 ∧
    fetchReviewsMulti [⟨some "A", none, none, none, false, none⟩] {"A"} 5 0 =
      [("A", [⟨some "A", none, none, none, false, none⟩])] := by
  decide

/-- C4: a metadata record with a blank title, an unusable price, or a missing
parent key is skipped for all categories simultaneously: processing it leaves
the pass state unchanged (so it is inserted into no category's map and tested
against no keyword filter), and the whole pass is insensitive to the presence
of invalid records in the stream. -/
theorem invalid_record_skipped_globally (cfgs : List Cat) (limits : String → ℕ)
    (st : MetaState) (item : MetaItem) (stream : List MetaItem) :
    (validMeta item = false → metaStep cfgs limits st item = st) ∧
    metaLoop cfgs limits stream st = metaLoop cfgs limits (stream.filter validMeta) st :=
  ⟨metaStep_invalid cfgs limits st item, metaLoop_filter cfgs limits stream st⟩

/-- Witness for C4 at a concrete invalid record (missing title). -/
theorem invalid_record_skipped_globally_witness :
    validMeta wMetaNoTitle = false ∧
    metaStep [wCat] (fun _ => 5) ⟨[("Gaming Mice", [])], ∅⟩ wMetaNoTitle =
      ⟨[("Gaming Mice", [])], ∅⟩ :=
  ⟨by decide,
   (invalid_record_skipped_globally [wCat] (fun _ => 5) ⟨[("Gaming Mice", [])], ∅⟩
      wMetaNoTitle []).1 (by decide)⟩

/-! Helper lemmas for the review phase. -/

theorem keyLe_total (a b : ℕ × Int) : keyLe a b = true ∨ keyLe b a = true := by
  unfold keyLe
  simp only [Bool.or_eq_true, Bool.and_eq_true, decide_eq_true_eq]
  omega

theorem keyLe_trans {a b c : ℕ × Int} (h1 : keyLe a b = true) (h2 : keyLe b c = true) :
    keyLe a c = true := by
  unfold keyLe at h1 h2 ⊢
  simp only [Bool.or_eq_true, Bool.and_eq_true, decide_eq_true_eq] at h1 h2 ⊢
  omega

instance : IsTotal ReviewItem revGe :=
  ⟨fun r s => keyLe_total (revKey s) (revKey r)⟩

instance : IsTrans ReviewItem revGe :=
  ⟨fun _ _ _ h1 h2 => keyLe_trans h2 h1⟩

theorem lookupAssoc_mem {α : Type _} {l : List (String × α)} {k : String} {v : α}
    (h : lookupAssoc l k = some v) : ∃ e ∈ l, e.2 = v := by
  unfold lookupAssoc at h
  cases hf : l.find? (fun e => e.1 = k) with
  | none => rw [hf] at h; exact absurd h (by simp)
  | some e =>
    rw [hf] at h
    exact ⟨e, List.mem_of_find?_eq_some hf, by simpa using h⟩

theorem updateAssoc_mem {α : Type _} {l : List (String × α)} {k : String} {v : α} {e}
    (h : e ∈ updateAssoc l k v) : e ∈ l ∨ e = (k, v) := by
  unfold updateAssoc at h
  split at h
  · rcases List.mem_map.mp h with ⟨x, hx, hxe⟩
    by_cases hk : x.1 = k
    · right; rw [← hxe]; simp [hk]
    · left; rw [← hxe]; simp only [hk, if_false]; exact hx
  · rcases List.mem_append.mp h with h | h
    · exact Or.inl h
    · exact Or.inr (by simpa using h)

/-- All review lists in a reviews dict are capped at R and sorted descending. -/
def goodRev (R : ℕ) (rv : List (String × List ReviewItem)) : Prop :=
  ∀ e ∈ rv, (e.2 : List ReviewItem).length ≤ R ∧ e.2.Sorted revGe

theorem fetchReviewsMulti_good (stream : List ReviewItem) (asinSet : Finset String)
    (perProduct maxScan : ℕ) :
    goodRev perProduct (fetchReviewsMulti stream asinSet perProduct maxScan) := by
  intro e he
  unfold fetchReviewsMulti at he
  split at he
  · exact absurd he (by simp)
  · rcases List.mem_map.mp he with ⟨x, _, rfl⟩
    constructor
    · simp
    · exact (List.sorted_insertionSort revGe x.2).sublist (List.take_sublist _ _)

theorem foldl_updateAssoc_good {R : ℕ} {batch : List (String × List ReviewItem)}
    (hb : goodRev R batch) :
    ∀ {acc}, goodRev R acc →
      goodRev R (batch.foldl (fun a kv => updateAssoc a kv.1 kv.2) acc) := by
  induction batch with
  | nil => intro acc ha; exact ha
  | cons kv rest ih =>
    intro acc ha
    apply ih (fun e he => hb e (List.mem_cons_of_mem _ he))
    intro e he
    rcases updateAssoc_mem he with h | h
    · exact ha e h
    · rw [h]; exact hb kv (List.mem_cons_self _ _)

theorem reviewPhase_good (cats : List Cat) (R : ℕ) (rstreams : String → List ReviewItem)
    (products : List (String × List (String × MetaItem))) :
    goodRev R (reviewPhase cats R rstreams products).reviews := by
  unfold reviewPhase
  generalize buildReviewIndex cats products = idx
  suffices h : ∀ (entries : List ReviewIndexEntry) (st : ReviewPhaseState),
      goodRev R st.reviews →
      goodRev R (entries.foldl (reviewPhaseStep R rstreams) st).reviews by
    exact h idx ⟨[], []⟩ (by intro e he; exact absurd he (by simp))
  intro entries
  induction entries with
  | nil => intro st h; exact h
  | cons e rest ih =>
    intro st h
    apply ih
    unfold reviewPhaseStep
    split
    · exact h
    · exact foldl_updateAssoc_good (fetchReviewsMulti_good _ _ _ _) h

/-- C6: after the review phase every collected review sequence has length at
most reviews_per_product and is sorted non-increasing by the pair
(verified-purchase as one or zero, helpful-vote count). -/
theorem reviews_capped_and_sorted (cats : List Cat) (R : ℕ)
    (rstreams : String → List ReviewItem)
    (products : List (String × List (String × MetaItem))) (k : String)
    (revs : List ReviewItem)
    (h : lookupAssoc (reviewPhase cats R rstreams products).reviews k = some revs) :
    revs.length ≤ R ∧ revs.Sorted revGe := by
  rcases lookupAssoc_mem h with ⟨e, he, hrev⟩
  rw [← hrev]
  exact reviewPhase_good cats R rstreams products e he

/-- Review stream fixture: three reviews for one key behind one path. -/
def wRStreams : String → List ReviewItem := fun p =>
  if p = "pr" then [wRev "A1" false 2, wRev "A1" true 1, wRev "A1" false 5] else []

/-- Witness for C6 on a concrete run: with a cap of two, the key keeps the
first two candidates reordered verified-first. -/
theorem reviews_capped_and_sorted_witness :
    lookupAssoc (reviewPhase [wCat] 2 wRStreams
        [("Gaming Mice", [("A1", wMeta "A1")])]).reviews "A1" =
      some [wRev "A1" true 1, wRev "A1" false 2] ∧
    ([wRev "A1" true 1, wRev "A1" false 2] : List ReviewItem).length ≤ 2 ∧
    ([wRev "A1" true 1, wRev "A1" false 2] : List ReviewItem).Sorted revGe :=
  ⟨by decide,
   reviews_capped_and_sorted [wCat] 2 wRStreams
     [("Gaming Mice", [("A1", wMeta "A1")])] "A1" _ (by decide)⟩

/-! Helper lemmas for the transform stage. -/

theorem le_fst_of_mem_enumFrom {α : Type _} {e : ℕ × α} :
    ∀ {n : ℕ} {l : List α}, e ∈ List.enumFrom n l → n ≤ e.1 := by
  intro n l
  induction l generalizing n with
  | nil => intro h; exact absurd h (by simp)
  | cons x xs ih =>
    intro h
    rw [List.enumFrom_cons] at h
    rcases List.mem_cons.mp h with h | h
    · exact h ▸ Nat.le_refl n
    · exact Nat.le_trans (Nat.le_succ n) (ih h)

theorem pairwise_fst_lt_enumFrom {α : Type _} :
    ∀ (n : ℕ) (l : List α), (List.enumFrom n l).Pairwise (fun a b => a.1 < b.1)
  | _, [] => List.Pairwise.nil
  | n, x :: xs => by
    rw [List.enumFrom_cons]
    refine List.Pairwise.cons ?_ (pairwise_fst_lt_enumFrom (n + 1) xs)
    intro b hb
    exact Nat.lt_of_lt_of_le (Nat.lt_succ_self n) (le_fst_of_mem_enumFrom hb)

theorem snd_mem_of_mem_enumFrom {α : Type _} {e : ℕ × α} {n : ℕ} {l : List α}
    (h : e ∈ List.enumFrom n l) : e.2 ∈ l := by
  have h' := List.mem_map_of_mem Prod.snd h
  rwa [List.enumFrom_map_snd] at h'

theorem enumFrom_filter_map_snd {α : Type _} (p : α → Bool) :
    ∀ (n : ℕ) (ps : List α),
      ((List.enumFrom n ps).filter (fun e => p e.2)).map Prod.snd = ps.filter p
  | _, [] => rfl
  | n, x :: xs => by
    rw [List.enumFrom_cons]
    cases hp : p x with
    | true =>
      rw [List.filter_cons_of_pos (by simpa using hp), List.filter_cons_of_pos hp,
        List.map_cons]
      exact congrArg _ (enumFrom_filter_map_snd p (n + 1) xs)
    | false =>
      rw [List.filter_cons_of_neg (by simpa using hp),
        List.filter_cons_of_neg (by simp [hp])]
      exact enumFrom_filter_map_snd p (n + 1) xs

theorem foldl_val_zeros : ∀ (k : ℕ),
    List.foldl (fun a c => 10 * a + (c.toNat - 48)) 0 (List.replicate k '0') = 0
  | 0 => rfl
  | k + 1 => by
    rw [List.replicate_succ, List.foldl_cons]
    exact foldl_val_zeros k

theorem digitsVal_zeros (k : ℕ) (l : List Char) :
    digitsVal (List.replicate k '0' ++ l) = digitsVal l := by
  unfold digitsVal
  rw [List.foldl_append, foldl_val_zeros]

theorem digitsVal_append_singleton (l : List Char) (c : Char) :
    digitsVal (l ++ [c]) = 10 * digitsVal l + (c.toNat - 48) := by
  unfold digitsVal
  rw [List.foldl_append]
  rfl

theorem digitChar_toNat {d : ℕ} (h : d < 10) : (Nat.digitChar d).toNat - 48 = d := by
  interval_cases d <;> decide

theorem digitsVal_decChars : ∀ (fuel n : ℕ), n ≤ fuel → digitsVal (decChars fuel n) = n
  | 0, n, h => by
    interval_cases n
    rfl
  | fuel + 1, n, h => by
    by_cases hn : n = 0
    · subst hn; rfl
    · show digitsVal (if n = 0 then [] else decChars fuel (n / 10) ++ [Nat.digitChar (n % 10)]) = n
      rw [if_neg hn, digitsVal_append_singleton,
        digitsVal_decChars fuel (n / 10) (by omega),
        digitChar_toNat (Nat.mod_lt n (by norm_num))]
      omega

theorem digitsVal_decStr (n : ℕ) : digitsVal (decStr n) = n := by
  unfold decStr
  by_cases hn : n = 0
  · subst hn; rfl
  · rw [if_neg hn]
    exact digitsVal_decChars n n (Nat.le_refl n)

theorem pad3_inj {m n : ℕ} (h : pad3 m = pad3 n) : m = n := by
  have h' : List.replicate (3 - (decStr m).length) '0' ++ decStr m =
      List.replicate (3 - (decStr n).length) '0' ++ decStr n := congrArg String.data h
  have hv := congrArg digitsVal h'
  rwa [digitsVal_zeros, digitsVal_zeros, digitsVal_decStr, digitsVal_decStr] at hv

theorem pad3_append_inj (pre : String) {i j : ℕ} (h : pre ++ pad3 i = pre ++ pad3 j) :
    i = j := by
  apply pad3_inj
  apply String.ext
  have h' := congrArg String.data h
  rw [String.data_append, String.data_append] at h'
  exact List.append_cancel_left h'

/-- C7: the final records of a category are exactly one per collected
metadata key with a non-empty review sequence, in particular their number
equals the number of keys with at least one collected review, and their
parent keys are exactly those keys in order. -/
theorem catalog_exact_nonempty_reviews (category : String)
    (rv : List (String × List ReviewItem)) (ps : List (String × MetaItem))
    (hkeys : ∀ e ∈ ps, (e.2 : MetaItem).parent_asin = some e.1) :
    (catRecords category rv ps).length =
      (ps.filter (fun e => !(lookupReviews rv e.1).isEmpty)).length ∧
    (catRecords category rv ps).map (fun r => r.parent_asin) =
      (ps.filter (fun e => !(lookupReviews rv e.1).isEmpty)).map (fun e => e.1) := by
  have hsnd : (emittedEntries rv ps).map Prod.snd =
      ps.filter (fun e => !(lookupReviews rv e.1).isEmpty) :=
    enumFrom_filter_map_snd (fun en : String × MetaItem => !(lookupReviews rv en.1).isEmpty) 1 ps
  constructor
  · rw [show (catRecords category rv ps).length = (emittedEntries rv ps).length from
      List.length_map _ _, ← hsnd, List.length_map]
  · unfold catRecords
    rw [List.map_map]
    have hcong : ∀ e ∈ emittedEntries rv ps,
        ((fun r => ProductRecord.parent_asin r) ∘
          (fun e : ℕ × String × MetaItem =>
            transform_product e.2.2 (lookupReviews rv e.2.1) category e.1)) e = e.2.1 := by
      intro e he
      have h2 : e.2 ∈ ps := snd_mem_of_mem_enumFrom (List.mem_of_mem_filter he)
      show (e.2.2 : MetaItem).parent_asin.getD "" = e.2.1
      rw [hkeys e.2 h2]
      rfl
    rw [List.map_congr_left hcong,
      show (fun e : ℕ × String × MetaItem => e.2.1) =
        (fun en : String × MetaItem => en.1) ∘ Prod.snd from rfl,
      ← List.map_map, hsnd]

/-- Witness for C7 on a concrete run: two collected keys, one with a review. -/
theorem catalog_exact_nonempty_reviews_witness :
    (catRecords "Gaming Mice" [("A1", [wRev "A1" true 1])]
        [("A1", wMeta "A1"), ("A2", wMeta "A2")]).length =
      ([("A1", wMeta "A1"), ("A2", wMeta "A2")].filter
        (fun e => !(lookupReviews [("A1", [wRev "A1" true 1])] e.1).isEmpty)).length ∧
    (catRecords "Gaming Mice" [("A1", [wRev "A1" true 1])]
        [("A1", wMeta "A1"), ("A2", wMeta "A2")]).map (fun r => r.parent_asin) =
      ([("A1", wMeta "A1"), ("A2", wMeta "A2")].filter
        (fun e => !(lookupReviews [("A1", [wRev "A1" true 1])] e.1).isEmpty)).map
        (fun e => e.1) :=
  catalog_exact_nonempty_reviews "Gaming Mice" [("A1", [wRev "A1" true 1])]
    [("A1", wMeta "A1"), ("A2", wMeta "A2")] (by decide)

/-- C8: within a category the final record ids are pairwise distinct, the
enumeration indices of emitted records are strictly increasing in metadata
insertion order, enumeration starts at one for the first collected key, and
every id is the category slug with the three-digit zero-padded index. -/
theorem catalog_ids_unique_increasing (category : String)
    (rv : List (String × List ReviewItem)) (ps : List (String × MetaItem)) :
    ((catRecords category rv ps).map (fun r => r.id)).Nodup ∧
    ((emittedEntries rv ps).map (fun e => e.1)).Sorted (· < ·) ∧
    (List.enumFrom 1 ps).map Prod.fst = List.range' 1 ps.length ∧
    (catRecords category rv ps).map (fun r => r.id) =
      (emittedEntries rv ps).map
        (fun e => "prod_" ++ catSlug category ++ "_" ++ pad3 e.1) := by
  have hsorted : ((emittedEntries rv ps).map (fun e => e.1)).Sorted (· < ·) := by
    unfold emittedEntries
    exact List.pairwise_map.mpr
      ((pairwise_fst_lt_enumFrom 1 ps).sublist (List.filter_sublist _))
  have hids : (catRecords category rv ps).map (fun r => r.id) =
      (emittedEntries rv ps).map
        (fun e => "prod_" ++ catSlug category ++ "_" ++ pad3 e.1) := by
    unfold catRecords
    rw [List.map_map]
    rfl
  refine ⟨?_, hsorted, List.enumFrom_map_fst 1 ps, hids⟩
  rw [hids,
    show (fun e : ℕ × String × MetaItem => "prod_" ++ catSlug category ++ "_" ++ pad3 e.1) =
      (fun i => "prod_" ++ catSlug category ++ "_" ++ pad3 i) ∘ (fun e => e.1) from rfl,
    ← List.map_map]
  exact List.Nodup.map (fun a b hab => pad3_append_inj _ hab)
    (hsorted.imp fun h => Nat.ne_of_lt h)

/-! Helper lemmas for the single-pass-per-path property. -/

theorem insertMetaSource_paths (idx : List MetaIndexEntry) (c : Cat) (s : Source) :
    (insertMetaSource idx c s).map (fun e => e.path) = idx.map (fun e => e.path) ∨
    ((insertMetaSource idx c s).map (fun e => e.path) =
        idx.map (fun e => e.path) ++ [s.path] ∧
      s.path ∉ idx.map (fun e => e.path)) := by
  unfold insertMetaSource
  split
  next hany =>
    left
    rw [List.map_map]
    apply List.map_congr_left
    intro e _
    by_cases hp : e.path = s.path
    · simp [hp]
    · simp [hp]
  next hany =>
    right
    refine ⟨by rw [List.map_append]; rfl, ?_⟩
    intro hmem
    rcases List.mem_map.mp hmem with ⟨e, he, hp⟩
    exact hany (List.any_eq_true.mpr ⟨e, he, by simp [hp]⟩)

theorem insertReviewSource_paths (idx : List ReviewIndexEntry) (a : Finset String)
    (s : Source) :
    (insertReviewSource idx a s).map (fun e => e.path) = idx.map (fun e => e.path) ∨
    ((insertReviewSource idx a s).map (fun e => e.path) =
        idx.map (fun e => e.path) ++ [s.path] ∧
      s.path ∉ idx.map (fun e => e.path)) := by
  unfold insertReviewSource
  split
  next hany =>
    left
    rw [List.map_map]
    apply List.map_congr_left
    intro e _
    by_cases hp : e.path = s.path
    · simp [hp]
    · simp [hp]
  next hany =>
    right
    refine ⟨by rw [List.map_append]; rfl, ?_⟩
    intro hmem
    rcases List.mem_map.mp hmem with ⟨e, he, hp⟩
    exact hany (List.any_eq_true.mpr ⟨e, he, by simp [hp]⟩)

theorem buildMetaIndex_paths_nodup (cats : List Cat) :
    ((buildMetaIndex cats).map (fun e => e.path)).Nodup := by
  unfold buildMetaIndex
  suffices h : ∀ (cs : List Cat) (idx : List MetaIndexEntry),
      (idx.map (fun e => e.path)).Nodup →
      ((cs.foldl (fun j c => c.metaSources.foldl (fun j s => insertMetaSource j c s) j)
        idx).map (fun e => e.path)).Nodup by
    exact h cats [] List.nodup_nil
  have hsrc : ∀ (c : Cat) (ss : List Source) (idx : List MetaIndexEntry),
      (idx.map (fun e => e.path)).Nodup →
      ((ss.foldl (fun j s => insertMetaSource j c s) idx).map (fun e => e.path)).Nodup := by
    intro c ss
    induction ss with
    | nil => intro idx h; exact h
    | cons s rest ih =>
      intro idx h
      apply ih
      rcases insertMetaSource_paths idx c s with heq | ⟨heq, hnm⟩
      · rw [heq]; exact h
      · rw [heq]
        exact List.Nodup.append h (List.nodup_singleton _)
          (List.disjoint_singleton.mpr hnm)
  intro cs
  induction cs with
  | nil => intro idx h; exact h
  | cons c rest ih => intro idx h; exact ih _ (hsrc c c.metaSources idx h)

theorem buildReviewIndex_paths_nodup (cats : List Cat)
    (products : List (String × List (String × MetaItem))) :
    ((buildReviewIndex cats products).map (fun e => e.path)).Nodup := by
  unfold buildReviewIndex
  suffices h : ∀ (cs : List Cat) (idx : List ReviewIndexEntry),
      (idx.map (fun e => e.path)).Nodup →
      ((cs.foldl (fun j c =>
          c.reviewSources.foldl
            (fun j s => insertReviewSource j
              ((getMap products c.name).map (fun e => e.1)).toFinset s) j)
        idx).map (fun e => e.path)).Nodup by
    exact h cats [] List.nodup_nil
  have hsrc : ∀ (a : Finset String) (ss : List Source) (idx : List ReviewIndexEntry),
      (idx.map (fun e => e.path)).Nodup →
      ((ss.foldl (fun j s => insertReviewSource j a s) idx).map (fun e => e.path)).Nodup := by
    intro a ss
    induction ss with
    | nil => intro idx h; exact h
    | cons s rest ih =>
      intro idx h
      apply ih
      rcases insertReviewSource_paths idx a s with heq | ⟨heq, hnm⟩
      · rw [heq]; exact h
      · rw [heq]
        exact List.Nodup.append h (List.nodup_singleton _)
          (List.disjoint_singleton.mpr hnm)
  intro cs
  induction cs with
  | nil => intro idx h; exact h
  | cons c rest ih => intro idx h; exact ih _ (hsrc _ c.reviewSources idx h)

theorem metaPhase_log_sublist (P : ℕ) (mstreams : String → List MetaItem) :
    ∀ (entries : List MetaIndexEntry) (st : MetaPhaseState),
      List.Sublist (entries.foldl (metaPhaseStep P mstreams) st).log
        (st.log ++ entries.map (fun e => e.path)) := by
  intro entries
  induction entries with
  | nil => intro st; simp
  | cons e rest ih =>
    intro st
    have hstep : (metaPhaseStep P mstreams st e).log = st.log ∨
        (metaPhaseStep P mstreams st e).log = st.log ++ [e.path] := by
      unfold metaPhaseStep
      split
      · exact Or.inl rfl
      · exact Or.inr rfl
    rw [List.foldl_cons]
    rcases hstep with h | h
    · refine (ih (metaPhaseStep P mstreams st e)).trans ?_
      rw [h, List.map_cons]
      exact List.Sublist.append_left (List.sublist_cons_self _ _) _
    · refine (ih (metaPhaseStep P mstreams st e)).trans ?_
      rw [h, List.map_cons, List.append_assoc]
      exact (List.append_assoc _ _ _).symm ▸ List.Sublist.refl _

theorem reviewPhase_log_sublist (R : ℕ) (rstreams : String → List ReviewItem) :
    ∀ (entries : List ReviewIndexEntry) (st : ReviewPhaseState),
      List.Sublist ((entries.foldl (reviewPhaseStep R rstreams) st).log.map (fun e => e.1))
        (st.log.map (fun e => e.1) ++ entries.map (fun e => e.path)) := by
  intro entries
  induction entries with
  | nil => intro st; simp
  | cons e rest ih =>
    intro st
    have hstep : (reviewPhaseStep R rstreams st e).log = st.log ∨
        (reviewPhaseStep R rstreams st e).log =
          st.log ++ [(e.path, neededSet e st.reviews)] := by
      unfold reviewPhaseStep
      split
      · exact Or.inl rfl
      · exact Or.inr rfl
    rw [List.foldl_cons]
    rcases hstep with h | h
    · refine (ih (reviewPhaseStep R rstreams st e)).trans ?_
      rw [h, List.map_cons]
      exact List.Sublist.append_left (List.sublist_cons_self _ _) _
    · refine (ih (reviewPhaseStep R rstreams st e)).trans ?_
      rw [h, List.map_cons, List.map_append, List.append_assoc]
      exact List.Sublist.refl _

/-- C1: in any run each unique source path is streamed at most once per
phase: the invocation logs of both phases, projected to paths, contain no
duplicates, however many categories or products reference a path. -/
theorem each_path_streamed_once (cats : List Cat) (P R : ℕ)
    (mstreams : String → List MetaItem) (rstreams : String → List ReviewItem) :
    (runPipeline cats P R mstreams rstreams).metaLog.Nodup ∧
    ((runPipeline cats P R mstreams rstreams).reviewLog.map (fun e => e.1)).Nodup := by
  constructor
  · have hs := metaPhase_log_sublist P mstreams (buildMetaIndex cats)
      ⟨cats.map (fun c => (c.name, [])), []⟩
    rw [List.nil_append] at hs
    exact hs.nodup (buildMetaIndex_paths_nodup cats)
  · have hs := reviewPhase_log_sublist R rstreams
      (buildReviewIndex cats (metaPhase cats P mstreams).products) ⟨[], []⟩
    rw [List.map_nil, List.nil_append] at hs
    exact hs.nodup (buildReviewIndex_paths_nodup cats (metaPhase cats P mstreams).products)

/-! Characterization of dict assignment and helper facts reused below. -/

theorem lookupAssoc_nil {α : Type _} (n : String) : lookupAssoc ([] : List (String × α)) n = none :=
  rfl

theorem lookupAssoc_cons {α : Type _} (x : String × α) (xs : List (String × α)) (n : String) :
    lookupAssoc (x :: xs) n = if x.1 = n then some x.2 else lookupAssoc xs n := by
  unfold lookupAssoc
  by_cases h : x.1 = n
  · rw [List.find?_cons_of_pos _ (by simp [h]), if_pos h]
    rfl
  · rw [List.find?_cons_of_neg _ (by simp [h]), if_neg h]

theorem lookupAssoc_mapReplace {α : Type _} (k n : String) (v : α) :
    ∀ l : List (String × α),
      lookupAssoc (l.map (fun e => if e.1 = k then (k, v) else e)) n =
        if n = k then (if l.any (fun e => e.1 = k) then some v else none)
        else lookupAssoc l n
  | [] => by
    by_cases h : n = k <;> simp [lookupAssoc_nil, h]
  | x :: xs => by
    rw [List.map_cons, lookupAssoc_cons, lookupAssoc_cons,
      lookupAssoc_mapReplace k n v xs]
    by_cases hx : x.1 = k
    · rw [if_pos hx]
      by_cases hn : n = k
      · rw [if_pos hn, if_pos hn, if_pos (show ((k, v) : String × α).1 = n from hn.symm),
          if_pos (show ((x :: xs).any (fun e => e.1 = k)) = true by simp [List.any_cons, hx])]
      · rw [if_neg hn, if_neg hn,
          if_neg (show ¬((k, v) : String × α).1 = n from fun h => hn h.symm),
          if_neg (show ¬x.1 = n from fun h => hn (hx.symm.trans h).symm)]
    · rw [if_neg hx]
      by_cases hxn : x.1 = n
      · rw [if_pos hxn, if_pos hxn,
          if_neg (show ¬n = k from fun h => hx (hxn.trans h))]
      · rw [if_neg hxn, if_neg hxn]
        by_cases hn : n = k
        · rw [if_pos hn, if_pos hn,
            show ((x :: xs).any (fun e => e.1 = k)) = (xs.any (fun e => e.1 = k)) by
              simp [List.any_cons, hx]]
        · rw [if_neg hn, if_neg hn]

theorem lookupAssoc_appendSingle {α : Type _} (k n : String) (v : α) :
    ∀ l : List (String × α),
      lookupAssoc (l ++ [(k, v)]) n =
        if n = k then (lookupAssoc l n).orElse (fun _ => some v)
        else lookupAssoc l n
  | [] => by
    rw [List.nil_append]
    by_cases h : n = k
    · rw [lookupAssoc_cons, lookupAssoc_nil, if_pos h,
        if_pos (show ((k, v) : String × α).1 = n from h.symm)]
      rfl
    · rw [lookupAssoc_cons, lookupAssoc_nil, if_neg h,
        if_neg (show ¬((k, v) : String × α).1 = n from fun hh => h hh.symm)]
  | x :: xs => by
    rw [List.cons_append, lookupAssoc_cons, lookupAssoc_cons,
      lookupAssoc_appendSingle k n v xs]
    by_cases hxn : x.1 = n
    · rw [if_pos hxn, if_pos hxn]
      by_cases hn : n = k <;> simp [hn]
    · rw [if_neg hxn, if_neg hxn]

theorem lookupAssoc_eq_none_of_any_false {α : Type _} {l : List (String × α)} {n : String}
    (h : l.any (fun e => e.1 = n) = false) : lookupAssoc l n = none := by
  induction l with
  | nil => rfl
  | cons x xs ih =>
    rw [List.any_cons, Bool.or_eq_false_iff] at h
    rw [lookupAssoc_cons, if_neg (by simpa using h.1)]
    exact ih h.2

theorem lookupAssoc_updateAssoc {α : Type _} (l : List (String × α)) (k n : String)
    (v : α) :
    lookupAssoc (updateAssoc l k v) n = if n = k then some v else lookupAssoc l n := by
  unfold updateAssoc
  by_cases hany : l.any (fun e => e.1 = k)
  · rw [if_pos hany, lookupAssoc_mapReplace, if_pos hany]
  · rw [if_neg hany, lookupAssoc_appendSingle]
    by_cases hn : n = k
    · subst hn
      rw [if_pos rfl, if_pos rfl,
        lookupAssoc_eq_none_of_any_false (Bool.eq_false_iff.mpr hany)]
      rfl
    · rw [if_neg hn, if_neg hn]

theorem getMap_updateAssoc {α : Type _} (m : List (String × List (String × α)))
    (k n : String) (v : List (String × α)) :
    getMap (updateAssoc m k v) n = if n = k then v else getMap m n := by
  unfold getMap
  rw [lookupAssoc_updateAssoc]
  by_cases h : n = k <;> simp [h]

/-! Validity of everything retained by the metadata phase. -/

/-- Every binding in every per-name entry list of a nested dict passed the
global validity filter. -/
def validProducts (m : List (String × List (String × MetaItem))) : Prop :=
  ∀ n, ∀ e ∈ getMap m n, validMeta e.2 = true

theorem getMap_initNames (cats : List Cat) (n : String) :
    getMap (cats.map (fun c => (c.name, []))) n = ([] : List (String × MetaItem)) := by
  induction cats with
  | nil => rfl
  | cons c rest ih =>
    unfold getMap at ih ⊢
    rw [List.map_cons, lookupAssoc_cons]
    by_cases h : c.name = n
    · rw [if_pos h]; rfl
    · rw [if_neg h]; exact ih

theorem validProducts_update {m : List (String × List (String × MetaItem))}
    (hm : validProducts m) {k : String} {v : List (String × MetaItem)}
    (hv : ∀ e ∈ v, validMeta e.2 = true) : validProducts (updateAssoc m k v) := by
  intro n e he
  rw [getMap_updateAssoc] at he
  by_cases h : n = k
  · rw [if_pos h] at he; exact hv e he
  · rw [if_neg h] at he; exact hm n e he

theorem catStep_valid {limits : String → ℕ} {key : String} {item : MetaItem}
    {st : MetaState} {c : Cat} (hst : validProducts st.results)
    (hitem : validMeta item = true) :
    validProducts (catStep limits key item st c).results := by
  unfold catStep
  split
  · exact hst
  · split
    · refine validProducts_update hst ?_
      intro e he
      rcases List.mem_append.mp he with h | h
      · exact hst c.name e h
      · rw [List.mem_singleton.mp h]; exact hitem
    · exact hst

theorem foldl_catStep_valid {limits : String → ℕ} {key : String} {item : MetaItem}
    (hitem : validMeta item = true) :
    ∀ (cfgs : List Cat) (st : MetaState), validProducts st.results →
      validProducts ((cfgs.foldl (catStep limits key item) st).results)
  | [], _, h => h
  | _ :: rest, _, h => foldl_catStep_valid hitem rest _ (catStep_valid h hitem)

theorem metaStep_valid {cfgs : List Cat} {limits : String → ℕ} {st : MetaState}
    {item : MetaItem} (hst : validProducts st.results) :
    validProducts ((metaStep cfgs limits st item).results) := by
  unfold metaStep
  split
  · exact hst
  next hb =>
    split
    · exact hst
    next hp =>
      cases hk : itemKey item with
      | none => exact hst
      | some key =>
        have hitem : validMeta item = true := by
          unfold validMeta
          rw [Bool.eq_false_iff.mpr hb, hk]
          cases hpp : parse_price item.price with
          | none => exact absurd (by rw [hpp]; rfl) hp
          | some w => rfl
        exact foldl_catStep_valid hitem cfgs st hst

theorem metaLoop_valid {cfgs : List Cat} {limits : String → ℕ} :
    ∀ (stream : List MetaItem) (st : MetaState), validProducts st.results →
      validProducts ((metaLoop cfgs limits stream st).results)
  | [], _, h => h
  | item :: rest, st, h => by
    unfold metaLoop
    split
    · split
      · exact metaStep_valid h
      · exact metaLoop_valid rest _ (metaStep_valid h)
    · exact metaLoop_valid rest st h

theorem streamMetadataMulti_valid (cfgs : List Cat) (limits : String → ℕ)
    (stream : List MetaItem) :
    validProducts ((streamMetadataMulti cfgs limits stream).results) := by
  apply metaLoop_valid
  intro n e he
  rw [show (MetaState.mk (cfgs.map (fun c => (c.name, []))) ∅).results =
    cfgs.map (fun c => (c.name, [])) from rfl, getMap_initNames] at he
  exact absurd he (by simp)

theorem foldl_updateEntry_valid {batch : List (String × MetaItem)}
    (hb : ∀ e ∈ batch, validMeta e.2 = true) :
    ∀ {cur : List (String × MetaItem)}, (∀ e ∈ cur, validMeta e.2 = true) →
      ∀ e ∈ batch.foldl (fun acc x => updateAssoc acc x.1 x.2) cur, validMeta e.2 = true := by
  induction batch with
  | nil => intro cur hc e he; exact hc e he
  | cons x rest ih =>
    intro cur hc e he
    refine ih (fun e he => hb e (List.mem_cons_of_mem _ he)) ?_ e he
    intro e he
    rcases updateAssoc_mem he with h | h
    · exact hc e h
    · rw [h]; exact hb x (List.mem_cons_self _ _)

theorem mergeCat_valid {P : ℕ} {batch cur : List (String × MetaItem)}
    (hb : ∀ e ∈ batch, validMeta e.2 = true) (hc : ∀ e ∈ cur, validMeta e.2 = true) :
    ∀ e ∈ mergeCat P batch cur, validMeta e.2 = true := by
  unfold mergeCat
  exact foldl_updateEntry_valid
    (fun e he => hb e ((List.take_sublist _ _).mem he)) hc

theorem metaPhaseStep_valid {P : ℕ} {mstreams : String → List MetaItem}
    {st : MetaPhaseState} (hst : validProducts st.products) (e : MetaIndexEntry) :
    validProducts ((metaPhaseStep P mstreams st e).products) := by
  unfold metaPhaseStep
  split
  · exact hst
  · suffices h : ∀ (cs : List Cat) (pr : List (String × List (String × MetaItem))),
        validProducts pr →
        validProducts (cs.foldl (fun pr c =>
          updateAssoc pr c.name
            (mergeCat P (getMap (entryBatch P mstreams st.products e).results c.name)
              (getMap pr c.name))) pr) by
      exact h _ _ hst
    intro cs
    induction cs with
    | nil => intro pr h; exact h
    | cons c rest ih =>
      intro pr h
      refine ih _ (validProducts_update h ?_)
      exact mergeCat_valid (streamMetadataMulti_valid _ _ _ c.name) (h c.name)

theorem metaPhase_valid (cats : List Cat) (P : ℕ) (mstreams : String → List MetaItem) :
    validProducts ((metaPhase cats P mstreams).products) := by
  unfold metaPhase
  suffices h : ∀ (entries : List MetaIndexEntry) (st : MetaPhaseState),
      validProducts st.products →
      validProducts ((entries.foldl (metaPhaseStep P mstreams) st).products) by
    refine h _ _ ?_
    intro n e he
    rw [show (MetaPhaseState.mk (cats.map (fun c => (c.name, []))) []).products =
      cats.map (fun c => (c.name, [])) from rfl, getMap_initNames] at he
    exact absurd he (by simp)
  intro entries
  induction entries with
  | nil => intro st h; exact h
  | cons e rest ih => intro st h; exact ih _ (metaPhaseStep_valid h e)

theorem mem_foldl_append {β γ : Type _} (f : γ → List β) :
    ∀ (names : List γ) (acc : List β) (r : β),
      r ∈ names.foldl (fun a c => a ++ f c) acc ↔ r ∈ acc ∨ ∃ n ∈ names, r ∈ f n
  | [], acc, r => by simp
  | c :: rest, acc, r => by
    rw [List.foldl_cons, mem_foldl_append f rest _ r, List.mem_append]
    constructor
    · rintro ((h | h) | ⟨n, hn, hr⟩)
      · exact Or.inl h
      · exact Or.inr ⟨c, List.mem_cons_self _ _, h⟩
      · exact Or.inr ⟨n, List.mem_cons_of_mem _ hn, hr⟩
    · rintro (h | ⟨n, hn, hr⟩)
      · exact Or.inl (Or.inl h)
      · rcases List.mem_cons.mp hn with h | h
        · exact Or.inl (Or.inr (h ▸ hr))
        · exact Or.inr ⟨n, h, hr⟩

/-- C10: every record in the final written catalog carries a present and
strictly positive base price, although the record type declares the price
optional: the metadata pass drops records whose price text does not parse to
a positive value, and the transform stage re-parses the same unchanged price
field of the retained record. -/
theorem final_base_price_positive (cats : List Cat) (P R : ℕ)
    (mstreams : String → List MetaItem) (rstreams : String → List ReviewItem)
    (r : ProductRecord) (hr : r ∈ (runPipeline cats P R mstreams rstreams).catalog) :
    ∃ v : ℚ, r.base_price = some v ∧ 0 < v := by
  have hvalid := metaPhase_valid cats P mstreams
  unfold runPipeline catalogPhase at hr
  rcases (mem_foldl_append _ _ _ _).mp hr with h | ⟨n, _, hrn⟩
  · exact absurd h (by simp)
  · unfold catRecords at hrn
    rcases List.mem_map.mp hrn with ⟨e, he, hre⟩
    have hmem : e.2 ∈ getMap (metaPhase cats P mstreams).products n :=
      snd_mem_of_mem_enumFrom (List.mem_of_mem_filter he)
    have hv := hvalid n e.2 hmem
    unfold validMeta at hv
    rw [Bool.and_eq_true, Bool.and_eq_true] at hv
    rcases Option.isSome_iff_exists.mp hv.1.2 with ⟨v, hvp⟩
    refine ⟨v, ?_, parse_price_pos hvp⟩
    rw [← hre]
    exact hvp

/-- Metadata stream fixture: one valid matching record behind one path. -/
def wMStreams : String → List MetaItem := fun p =>
  if p = "pm" then [wMeta "A1"] else []

/-- An empty product record used only as a head default. -/
def wDummy : ProductRecord :=
  ⟨"", "", "", "", "", none, 0, 0, [], [], "", []⟩

/-- Witness for C10 on a full concrete run that emits one record. -/
theorem final_base_price_positive_witness :
    ∃ v : ℚ,
      ((runPipeline [wCat] 2 2 wMStreams wRStreams).catalog.headD wDummy).base_price =
        some v ∧ 0 < v :=
  final_base_price_positive [wCat] 2 2 wMStreams wRStreams _ (by decide)

/-! Characterization of one metadata pass for a fixed category: what it
collects is the key-deduplicated list of its valid matching records,
truncated at its limit. -/

/-- A record is valid and matches the keywords of category c. -/
def validMatch (c : Cat) (item : MetaItem) : Bool :=
  validMeta item && matches_keywords item c.keywords

/-- The keyed valid matching records of a stream, for category c. -/
def matchRecords (c : Cat) (stream : List MetaItem) : List (String × MetaItem) :=
  stream.filterMap (fun item =>
    if validMatch c item then (itemKey item).map (fun k => (k, item)) else none)

/-- First-seen deduplication by key, continuing from an accumulator. -/
def dedupFrom (acc : List (String × MetaItem)) (l : List (String × MetaItem)) :
    List (String × MetaItem) :=
  l.foldl (fun a e => if a.any (fun x => x.1 = e.1) then a else a ++ [e]) acc

theorem dedupFrom_nil (acc : List (String × MetaItem)) : dedupFrom acc [] = acc :=
  rfl

theorem dedupFrom_cons (acc : List (String × MetaItem)) (e : String × MetaItem)
    (l : List (String × MetaItem)) :
    dedupFrom acc (e :: l) =
      dedupFrom (if acc.any (fun x => x.1 = e.1) then acc else acc ++ [e]) l :=
  rfl

theorem dedupFrom_extends (l : List (String × MetaItem)) :
    ∀ acc, ∃ t, dedupFrom acc l = acc ++ t := by
  induction l with
  | nil => intro acc; exact ⟨[], (List.append_nil acc).symm⟩
  | cons e rest ih =>
    intro acc
    rw [dedupFrom_cons]
    by_cases h : acc.any (fun x => x.1 = e.1)
    · rw [if_pos h]; exact ih acc
    · rw [if_neg h]
      rcases ih (acc ++ [e]) with ⟨t, ht⟩
      exact ⟨[e] ++ t, by rw [ht, List.append_assoc]⟩

/-- Keys already present absorb, fresh keys append, so a dedup accumulator
keeps nodup keys. -/
theorem dedupFrom_keys_nodup (l : List (String × MetaItem)) :
    ∀ acc, ((acc : List (String × MetaItem)).map (fun e => e.1)).Nodup →
      ((dedupFrom acc l).map (fun e => e.1)).Nodup := by
  induction l with
  | nil => intro acc h; exact h
  | cons e rest ih =>
    intro acc h
    rw [dedupFrom_cons]
    by_cases hk : acc.any (fun x => x.1 = e.1)
    · rw [if_pos hk]; exact ih acc h
    · rw [if_neg hk]
      refine ih _ ?_
      rw [List.map_append]
      refine List.Nodup.append h (by simp) ?_
      intro a ha hb
      rcases List.mem_map.mp ha with ⟨x, hx, hxa⟩
      have : a = e.1 := by simpa using hb
      rw [this] at hxa
      exact (Bool.eq_false_iff.mp (Bool.eq_false_iff.mpr hk)) (List.any_eq_true.mpr ⟨x, hx, by simp [hxa]⟩)

theorem matchRecords_cons_invalid {c : Cat} {item : MetaItem} {rest : List MetaItem}
    (h : validMatch c item = false) :
    matchRecords c (item :: rest) = matchRecords c rest := by
  unfold matchRecords
  rw [List.filterMap_cons]
  simp [h]

theorem matchRecords_cons_match {c : Cat} {item : MetaItem} {rest : List MetaItem}
    {k : String} (hm : validMatch c item = true) (hk : itemKey item = some k) :
    matchRecords c (item :: rest) = (k, item) :: matchRecords c rest := by
  unfold matchRecords
  rw [List.filterMap_cons]
  simp [hm, hk]

theorem catStep_other {limits : String → ℕ} {key : String} {item : MetaItem}
    {st : MetaState} {d : Cat} {c : Cat} (hd : d.name ≠ c.name) :
    getMap (catStep limits key item st d).results c.name = getMap st.results c.name ∧
    (c.name ∈ (catStep limits key item st d).full ↔ c.name ∈ st.full) := by
  unfold catStep
  split
  · exact ⟨rfl, Iff.rfl⟩
  · split
    · constructor
      · rw [show (MetaState.mk (updateAssoc st.results d.name _) _).results =
          updateAssoc st.results d.name (getMap st.results d.name ++ [(key, item)]) from rfl,
          getMap_updateAssoc, if_neg (fun h => hd h.symm)]
      · show c.name ∈ (if _ then insert d.name st.full else st.full) ↔ _
        split
        · rw [Finset.mem_insert]
          constructor
          · rintro (h | h)
            · exact absurd h.symm hd
            · exact h
          · exact Or.inr
        · exact Iff.rfl
    · exact ⟨rfl, Iff.rfl⟩

theorem foldl_catStep_other {limits : String → ℕ} {key : String} {item : MetaItem}
    {c : Cat} :
    ∀ {cfgs : List Cat} (st : MetaState), (∀ d ∈ cfgs, d.name ≠ c.name) →
      getMap ((cfgs.foldl (catStep limits key item) st).results) c.name =
        getMap st.results c.name ∧
      (c.name ∈ (cfgs.foldl (catStep limits key item) st).full ↔ c.name ∈ st.full) := by
  intro cfgs
  induction cfgs with
  | nil => intro st _; exact ⟨rfl, Iff.rfl⟩
  | cons d rest ih =>
    intro st h
    rw [List.foldl_cons]
    have h1 := @catStep_other limits key item st d c (h d (List.mem_cons_self _ _))
    have h2 := ih (catStep limits key item st d) (fun e he => h e (List.mem_cons_of_mem _ he))
    exact ⟨h2.1.trans h1.1, h2.2.trans h1.2⟩

theorem catStep_self {limits : String → ℕ} {key : String} {item : MetaItem}
    {st : MetaState} {c : Cat} :
    getMap (catStep limits key item st c).results c.name =
      (if c.name ∈ st.full ∨ (getMap st.results c.name).any (fun e => e.1 = key) then
        getMap st.results c.name
      else if matches_keywords item c.keywords then
        getMap st.results c.name ++ [(key, item)]
      else getMap st.results c.name) ∧
    (c.name ∈ (catStep limits key item st c).full ↔
      (c.name ∈ st.full ∨
        (¬(c.name ∈ st.full ∨ (getMap st.results c.name).any (fun e => e.1 = key)) ∧
          matches_keywords item c.keywords = true ∧
          limits c.name ≤ (getMap st.results c.name ++ [(key, item)]).length))) := by
  unfold catStep
  split
  next hcond =>
    refine ⟨rfl, ?_⟩
    constructor
    · intro h; exact Or.inl h
    · rintro (h | ⟨hn, _, _⟩)
      · exact h
      · exact absurd hcond hn
  next hcond =>
    split
    next hm =>
      constructor
      · rw [show (MetaState.mk (updateAssoc st.results c.name
            (getMap st.results c.name ++ [(key, item)])) _).results =
          updateAssoc st.results c.name (getMap st.results c.name ++ [(key, item)]) from rfl,
          getMap_updateAssoc, if_pos rfl]
      · show c.name ∈ (if limits c.name ≤ _ then insert c.name st.full else st.full) ↔ _
        split
        next hlen =>
          simp only [Finset.mem_insert, true_or, true_iff]
          exact Or.inr ⟨hcond, hm, hlen⟩
        next hlen =>
          constructor
          · intro h; exact Or.inl h
          · rintro (h | ⟨_, _, hl⟩)
            · exact h
            · exact absurd hl hlen
    next hm =>
      refine ⟨rfl, ?_⟩
      constructor
      · intro h; exact Or.inl h
      · rintro (h | ⟨_, hmm, _⟩)
        · exact h
        · exact absurd hmm hm

theorem catStep_full_sub {limits : String → ℕ} {key : String} {item : MetaItem}
    {st : MetaState} {d : Cat} {S : Finset String} (hst : st.full ⊆ S)
    (hd : d.name ∈ S) : (catStep limits key item st d).full ⊆ S := by
  unfold catStep
  split
  · exact hst
  · split
    · show (if _ then insert d.name st.full else st.full) ⊆ S
      split
      · exact Finset.insert_subset hd hst
      · exact hst
    · exact hst

theorem foldl_catStep_full_sub {limits : String → ℕ} {key : String} {item : MetaItem}
    {S : Finset String} :
    ∀ {cfgs : List Cat} (st : MetaState), st.full ⊆ S → (∀ d ∈ cfgs, d.name ∈ S) →
      (cfgs.foldl (catStep limits key item) st).full ⊆ S := by
  intro cfgs
  induction cfgs with
  | nil => intro st h _; exact h
  | cons d rest ih =>
    intro st h hd
    rw [List.foldl_cons]
    exact ih _ (catStep_full_sub h (hd d (List.mem_cons_self _ _)))
      (fun e he => hd e (List.mem_cons_of_mem _ he))

theorem metaStep_full_sub {cfgs : List Cat} {limits : String → ℕ} {st : MetaState}
    {item : MetaItem} {S : Finset String} (hst : st.full ⊆ S)
    (hcats : ∀ d ∈ cfgs, d.name ∈ S) :
    (metaStep cfgs limits st item).full ⊆ S := by
  unfold metaStep
  split
  · exact hst
  · split
    · exact hst
    · cases hk : itemKey item with
      | none => exact hst
      | some key => exact foldl_catStep_full_sub st hst hcats

theorem metaStep_c {cfgs l₁ l₂ : List Cat} {c : Cat} {limits : String → ℕ}
    {st : MetaState} {item : MetaItem} {k : String}
    (hs : cfgs = l₁ ++ c :: l₂)
    (h₁ : ∀ d ∈ l₁, d.name ≠ c.name) (h₂ : ∀ d ∈ l₂, d.name ≠ c.name)
    (hv : validMeta item = true) (hk : itemKey item = some k) :
    getMap (metaStep cfgs limits st item).results c.name =
      (if c.name ∈ st.full ∨ (getMap st.results c.name).any (fun e => e.1 = k) then
        getMap st.results c.name
      else if matches_keywords item c.keywords then
        getMap st.results c.name ++ [(k, item)]
      else getMap st.results c.name) ∧
    (c.name ∈ (metaStep cfgs limits st item).full ↔
      (c.name ∈ st.full ∨
        (¬(c.name ∈ st.full ∨ (getMap st.results c.name).any (fun e => e.1 = k)) ∧
          matches_keywords item c.keywords = true ∧
          limits c.name ≤ (getMap st.results c.name ++ [(k, item)]).length))) := by
  have hv' := hv
  unfold validMeta at hv'
  rw [Bool.and_eq_true, Bool.and_eq_true] at hv'
  have hb : blankTitle item.title = false := by
    cases hB : blankTitle item.title
    · rfl
    · rw [hB] at hv'; exact absurd hv'.1.1 (by simp)
  have hp : (parse_price item.price).isNone = false := by
    cases hpp : parse_price item.price
    · rw [hpp] at hv'; exact absurd hv'.1.2 (by simp)
    · rfl
  have hred : metaStep cfgs limits st item = cfgs.foldl (catStep limits k item) st := by
    unfold metaStep
    rw [if_neg (by rw [hb]; exact Bool.false_ne_true),
      if_neg (by rw [hp]; exact Bool.false_ne_true), hk]
  rw [hred, hs, List.foldl_append, List.foldl_cons]
  have hA := @foldl_catStep_other limits k item c l₁ st h₁
  have hB := @catStep_self limits k item (l₁.foldl (catStep limits k item) st) c
  have hC := @foldl_catStep_other limits k item c l₂
    (catStep limits k item (l₁.foldl (catStep limits k item) st) c) h₂
  rw [hA.1] at hB
  simp only [hA.2] at hB
  exact ⟨hC.1.trans hB.1, hC.2.trans hB.2⟩

theorem metaLoop_char {cfgs l₁ l₂ : List Cat} {c : Cat} {limits : String → ℕ}
    (hs : cfgs = l₁ ++ c :: l₂)
    (h₁ : ∀ d ∈ l₁, d.name ≠ c.name) (h₂ : ∀ d ∈ l₂, d.name ≠ c.name)
    (hnd : (cfgs.map Cat.name).Nodup) :
    ∀ (stream : List MetaItem) (st : MetaState) (D : List (String × MetaItem)),
      getMap st.results c.name = D.take (limits c.name) →
      (c.name ∈ st.full ↔ limits c.name ≤ D.length) →
      st.full ⊆ (cfgs.map Cat.name).toFinset →
      getMap (metaLoop cfgs limits stream st).results c.name =
        (dedupFrom D (matchRecords c stream)).take (limits c.name) := by
  intro stream
  induction stream with
  | nil =>
    intro st D h1 h2 _
    rw [show metaLoop cfgs limits [] st = st from rfl,
      show matchRecords c [] = [] from rfl, dedupFrom_nil]
    exact h1
  | cons item rest ih =>
    intro st D h1 h2 h3
    rw [show metaLoop cfgs limits (item :: rest) st =
      (if validMeta item = true then
        (if cfgs.length ≤ (metaStep cfgs limits st item).full.card then
          metaStep cfgs limits st item
        else metaLoop cfgs limits rest (metaStep cfgs limits st item))
      else metaLoop cfgs limits rest st) from rfl]
    by_cases hv : validMeta item = true
    · rw [if_pos hv]
      have hkex : ∃ k, itemKey item = some k := by
        have hv' := hv
        unfold validMeta at hv'
        rw [Bool.and_eq_true, Bool.and_eq_true] at hv'
        exact Option.isSome_iff_exists.mp hv'.2
      rcases hkex with ⟨k, hk⟩
      have hstep := @metaStep_c cfgs l₁ l₂ c limits st item k hs h₁ h₂ hv hk
      have h3' : (metaStep cfgs limits st item).full ⊆ (cfgs.map Cat.name).toFinset :=
        metaStep_full_sub h3 (fun d hd => List.mem_toFinset.mpr (List.mem_map_of_mem _ hd))
      have hDfull : ¬c.name ∈ st.full → D.take (limits c.name) = D := by
        intro hf
        exact List.take_of_length_le (Nat.le_of_lt (Nat.lt_of_not_le (fun hh => hf (h2.mpr hh))))
      by_cases hm : matches_keywords item c.keywords = true
      · have hmatch : validMatch c item = true := by
          unfold validMatch; rw [hv, hm]; rfl
        by_cases hin : D.any (fun x => x.1 = k) = true
        · -- key already collected: state and dedup accumulator unchanged
          have hdedup : dedupFrom D (matchRecords c (item :: rest)) =
              dedupFrom D (matchRecords c rest) := by
            rw [matchRecords_cons_match hmatch hk, dedupFrom_cons, if_pos hin]
          have hres' : getMap (metaStep cfgs limits st item).results c.name =
              D.take (limits c.name) := by
            rw [hstep.1]
            by_cases hf : c.name ∈ st.full
            · rw [if_pos (Or.inl hf)]; exact h1
            · rw [if_pos (Or.inr (by rw [h1, hDfull hf]; exact hin))]
              exact h1
          have hfull' : c.name ∈ (metaStep cfgs limits st item).full ↔
              limits c.name ≤ D.length := by
            rw [hstep.2]
            constructor
            · rintro (h | ⟨hn, _, _⟩)
              · exact h2.mp h
              · exfalso
                refine hn (Or.inr ?_)
                have hf : ¬c.name ∈ st.full := fun h => hn (Or.inl h)
                rw [h1, hDfull hf]
                exact hin
            · intro h; exact Or.inl (h2.mpr h)
          rw [hdedup]
          split
          next hbreak =>
            have hcfull : c.name ∈ (metaStep cfgs limits st item).full := by
              have hcard : ((cfgs.map Cat.name).toFinset).card = cfgs.length := by
                rw [List.toFinset_card_of_nodup hnd, List.length_map]
              rw [Finset.eq_of_subset_of_card_le h3' (by rw [hcard]; exact hbreak)]
              exact List.mem_toFinset.mpr (List.mem_map_of_mem _
                (hs ▸ List.mem_append_right l₁ (List.mem_cons_self c l₂)))
            rcases dedupFrom_extends (matchRecords c rest) D with ⟨t, ht⟩
            rw [ht, List.take_append_of_le_length (hfull'.mp hcfull)]
            exact hres'
          next _ =>
            exact ih _ D hres' hfull' h3'
        · -- fresh key: appended to the collection while not full
          have hdedup : dedupFrom D (matchRecords c (item :: rest)) =
              dedupFrom (D ++ [(k, item)]) (matchRecords c rest) := by
            rw [matchRecords_cons_match hmatch hk, dedupFrom_cons, if_neg hin]
          have hres' : getMap (metaStep cfgs limits st item).results c.name =
              (D ++ [(k, item)]).take (limits c.name) := by
            rw [hstep.1]
            by_cases hf : c.name ∈ st.full
            · rw [if_pos (Or.inl hf), List.take_append_of_le_length (h2.mp hf)]
              exact h1
            · have hlt : D.length < limits c.name :=
                Nat.lt_of_not_le (fun hh => hf (h2.mpr hh))
              have hlen : (D ++ [(k, item)]).length ≤ limits c.name := by
                rw [List.length_append, List.length_singleton]; omega
              have hcond : ¬(c.name ∈ st.full ∨
                  ((getMap st.results c.name).any (fun e => e.1 = k)) = true) := by
                rintro (h | h)
                · exact hf h
                · rw [h1, hDfull hf] at h
                  exact hin h
              rw [if_neg hcond, if_pos hm, h1, hDfull hf, List.take_of_length_le hlen]
          have hfull' : c.name ∈ (metaStep cfgs limits st item).full ↔
              limits c.name ≤ (D ++ [(k, item)]).length := by
            rw [hstep.2]
            constructor
            · rintro (h | ⟨hn, _, hl⟩)
              · rw [List.length_append, List.length_singleton]
                have := h2.mp h; omega
              · have hf : ¬c.name ∈ st.full := fun h => hn (Or.inl h)
                rw [h1, hDfull hf] at hl
                exact hl
            · intro h
              by_cases hf : c.name ∈ st.full
              · exact Or.inl hf
              · refine Or.inr ⟨?_, hm, ?_⟩
                · rintro (hh | hh)
                  · exact hf hh
                  · rw [h1, hDfull hf] at hh
                    exact hin hh
                · rw [h1, hDfull hf]
                  exact h
          rw [hdedup]
          split
          next hbreak =>
            have hcfull : c.name ∈ (metaStep cfgs limits st item).full := by
              have hcard : ((cfgs.map Cat.name).toFinset).card = cfgs.length := by
                rw [List.toFinset_card_of_nodup hnd, List.length_map]
              rw [Finset.eq_of_subset_of_card_le h3' (by rw [hcard]; exact hbreak)]
              exact List.mem_toFinset.mpr (List.mem_map_of_mem _
                (hs ▸ List.mem_append_right l₁ (List.mem_cons_self c l₂)))
            rcases dedupFrom_extends (matchRecords c rest) (D ++ [(k, item)]) with ⟨t, ht⟩
            rw [ht, List.take_append_of_le_length (hfull'.mp hcfull)]
            exact hres'
          next _ =>
            exact ih _ (D ++ [(k, item)]) hres' hfull' h3'
      · -- keyword mismatch: nothing collected for c
        have hvm : validMatch c item = false := by
          unfold validMatch
          rw [Bool.and_eq_false_iff]
          exact Or.inr (Bool.eq_false_iff.mpr hm)
        have hdedup : dedupFrom D (matchRecords c (item :: rest)) =
            dedupFrom D (matchRecords c rest) := by
          rw [matchRecords_cons_invalid hvm]
        rw [if_neg hm] at hstep
        have hres' : getMap (metaStep cfgs limits st item).results c.name =
            D.take (limits c.name) := by
          rw [hstep.1]
          split <;> exact h1
        have hfull' : c.name ∈ (metaStep cfgs limits st item).full ↔
            limits c.name ≤ D.length := by
          rw [hstep.2]
          constructor
          · rintro (h | ⟨_, hmm, _⟩)
            · exact h2.mp h
            · exact absurd hmm hm
          · intro h; exact Or.inl (h2.mpr h)
        rw [hdedup]
        split
        next hbreak =>
          have hcfull : c.name ∈ (metaStep cfgs limits st item).full := by
            have hcard : ((cfgs.map Cat.name).toFinset).card = cfgs.length := by
              rw [List.toFinset_card_of_nodup hnd, List.length_map]
            rw [Finset.eq_of_subset_of_card_le h3' (by rw [hcard]; exact hbreak)]
            exact List.mem_toFinset.mpr (List.mem_map_of_mem _
              (hs ▸ List.mem_append_right l₁ (List.mem_cons_self c l₂)))
          rcases dedupFrom_extends (matchRecords c rest) D with ⟨t, ht⟩
          rw [ht, List.take_append_of_le_length (hfull'.mp hcfull)]
          exact hres'
        next _ =>
          exact ih _ D hres' hfull' h3'
    · have hvm : validMatch c item = false := by
        unfold validMatch
        rw [Bool.and_eq_false_iff]
        exact Or.inl (Bool.eq_false_iff.mpr hv)
      rw [if_neg hv, matchRecords_cons_invalid hvm]
      exact ih st D h1 h2 h3

/-- What one metadata pass collects for a category c handed in with a positive
limit: the first-seen key-deduplication of c's valid matching records,
truncated at the limit. -/
theorem pass_char (cfgs : List Cat) (c : Cat) (limits : String → ℕ)
    (hc : c ∈ cfgs) (hnd : (cfgs.map Cat.name).Nodup) (hl : 1 ≤ limits c.name)
    (stream : List MetaItem) :
    getMap (streamMetadataMulti cfgs limits stream).results c.name =
      (dedupFrom [] (matchRecords c stream)).take (limits c.name) := by
  rcases List.append_of_mem hc with ⟨l₁, l₂, hs⟩
  have hmapped : (cfgs.map Cat.name) = l₁.map Cat.name ++ c.name :: l₂.map Cat.name := by
    rw [hs, List.map_append, List.map_cons]
  have h₁ : ∀ d ∈ l₁, d.name ≠ c.name := by
    intro d hd heq
    rw [hmapped] at hnd
    exact List.disjoint_of_nodup_append hnd (List.mem_map_of_mem _ hd)
      (heq ▸ List.mem_cons_self _ _)
  have h₂ : ∀ d ∈ l₂, d.name ≠ c.name := by
    intro d hd heq
    rw [hmapped] at hnd
    have h := (List.nodup_append.mp hnd).2.1
    rw [List.nodup_cons] at h
    exact h.1 (heq ▸ List.mem_map_of_mem _ hd)
  unfold streamMetadataMulti
  apply metaLoop_char hs h₁ h₂ hnd
  · rw [show (MetaState.mk (cfgs.map (fun c => (c.name, []))) ∅).results =
      cfgs.map (fun c => (c.name, [])) from rfl, getMap_initNames, List.take_nil]
  · constructor
    · intro h; exact absurd h (Finset.not_mem_empty _)
    · intro h
      rw [List.length_nil] at h
      omega
  · intro x hx; exact absurd hx (Finset.not_mem_empty _)

theorem updateAssoc_length {α : Type _} (l : List (String × α)) (k : String) (v : α) :
    (updateAssoc l k v).length ≤ l.length + 1 := by
  unfold updateAssoc
  split
  · rw [List.length_map]; omega
  · rw [List.length_append]; simp

theorem foldl_updateAssoc_length {α : Type _} :
    ∀ (batch : List (String × α)) (acc : List (String × α)),
      (batch.foldl (fun a e => updateAssoc a e.1 e.2) acc).length ≤
        acc.length + batch.length
  | [], acc => by simp
  | e :: rest, acc => by
    rw [List.foldl_cons]
    have h1 := foldl_updateAssoc_length rest (updateAssoc acc e.1 e.2)
    have h2 := updateAssoc_length acc e.1 e.2
    rw [List.length_cons]
    omega

theorem mergeCat_length {P : ℕ} {batch cur : List (String × MetaItem)}
    (hc : cur.length ≤ P) : (mergeCat P batch cur).length ≤ P := by
  unfold mergeCat
  have h1 := foldl_updateAssoc_length (batch.take (P - cur.length)) cur
  have h2 : (batch.take (P - cur.length)).length ≤ P - cur.length := by
    rw [List.length_take]
    omega
  omega

theorem metaPhase_bounded (cats : List Cat) (P : ℕ)
    (mstreams : String → List MetaItem) (n : String) :
    (getMap (metaPhase cats P mstreams).products n).length ≤ P := by
  unfold metaPhase
  suffices h : ∀ (entries : List MetaIndexEntry) (st : MetaPhaseState),
      (∀ m, (getMap st.products m).length ≤ P) →
      ∀ m, (getMap ((entries.foldl (metaPhaseStep P mstreams) st)).products m).length ≤ P by
    refine h _ _ (fun m => ?_) n
    rw [show (MetaPhaseState.mk (cats.map (fun c => (c.name, []))) []).products =
      cats.map (fun c => (c.name, [])) from rfl, getMap_initNames]
    simp
  intro entries
  induction entries with
  | nil => intro st h m; exact h m
  | cons e rest ih =>
    intro st h m
    refine ih _ ?_ m
    unfold metaPhaseStep
    split
    · exact h
    · suffices hh : ∀ (cs : List Cat) (pr : List (String × List (String × MetaItem))),
          (∀ m, (getMap pr m).length ≤ P) →
          ∀ m, (getMap (cs.foldl (fun pr c =>
            updateAssoc pr c.name
              (mergeCat P (getMap (entryBatch P mstreams st.products e).results c.name)
                (getMap pr c.name))) pr) m).length ≤ P by
        exact hh _ _ h
      intro cs
      induction cs with
      | nil => intro pr hp m; exact hp m
      | cons d ds ihd =>
        intro pr hp m
        refine ihd _ (fun m => ?_) m
        rw [getMap_updateAssoc]
        split
        · exact mergeCat_length (hp d.name)
        · exact hp m

/-- Structural invariant of the metadata index: every listed category is a
configured category that references the entry's path, and the per-entry
category names are distinct. -/
def metaIndexInv (cats : List Cat) (idx : List MetaIndexEntry) : Prop :=
  ∀ e ∈ idx,
    (∀ d ∈ e.cats, d ∈ cats ∧ e.path ∈ d.metaSources.map (fun s => s.path)) ∧
    (e.cats.map Cat.name).Nodup

theorem insertMetaSource_inv {cats : List Cat} {idx : List MetaIndexEntry}
    {c : Cat} {s : Source} (h : metaIndexInv cats idx) (hc : c ∈ cats)
    (hsc : s ∈ c.metaSources) : metaIndexInv cats (insertMetaSource idx c s) := by
  intro e he
  unfold insertMetaSource at he
  split at he
  · rcases List.mem_map.mp he with ⟨x, hx, hxe⟩
    by_cases hp : x.path = s.path
    · rw [if_pos hp] at hxe
      rw [← hxe]
      by_cases hany : x.cats.any (fun d => d.name = c.name) = true
      · rw [if_pos hany]
        exact ⟨fun d hd => ⟨((h x hx).1 d hd).1, hp ▸ ((h x hx).1 d hd).2⟩, (h x hx).2⟩
      · rw [if_neg hany]
        constructor
        · intro d hd
          rcases List.mem_append.mp hd with hd | hd
          · exact ⟨((h x hx).1 d hd).1, hp ▸ ((h x hx).1 d hd).2⟩
          · rw [List.mem_singleton.mp hd]
            exact ⟨hc, hp ▸ List.mem_map_of_mem _ hsc⟩
        · rw [List.map_append, List.map_singleton]
          refine List.Nodup.append (h x hx).2 (List.nodup_singleton _)
            (List.disjoint_singleton.mpr ?_)
          intro hmem
          rcases List.mem_map.mp hmem with ⟨d, hd, hdn⟩
          exact hany (List.any_eq_true.mpr ⟨d, hd, by simp [hdn]⟩)
    · rw [if_neg hp] at hxe
      rw [← hxe]
      exact h x hx
  · rcases List.mem_append.mp he with he | he
    · exact h e he
    · rw [List.mem_singleton.mp he]
      constructor
      · intro d hd
        rw [List.mem_singleton.mp hd]
        exact ⟨hc, List.mem_map_of_mem _ hsc⟩
      · exact List.nodup_singleton _

theorem buildMetaIndex_inv (cats : List Cat) : metaIndexInv cats (buildMetaIndex cats) := by
  unfold buildMetaIndex
  suffices h : ∀ (cs : List Cat), (∀ d ∈ cs, d ∈ cats) →
      ∀ (idx : List MetaIndexEntry), metaIndexInv cats idx →
      metaIndexInv cats (cs.foldl
        (fun j c => c.metaSources.foldl (fun j s => insertMetaSource j c s) j) idx) by
    exact h cats (fun d hd => hd) [] (fun e he => absurd he (by simp))
  have hsrc : ∀ (c : Cat), c ∈ cats → ∀ (ss : List Source), (∀ x ∈ ss, x ∈ c.metaSources) →
      ∀ (idx : List MetaIndexEntry), metaIndexInv cats idx →
      metaIndexInv cats (ss.foldl (fun j s => insertMetaSource j c s) idx) := by
    intro c hc ss
    induction ss with
    | nil => intro _ idx h; exact h
    | cons s rest ih =>
      intro hss idx h
      exact ih (fun x hx => hss x (List.mem_cons_of_mem _ hx)) _
        (insertMetaSource_inv h hc (hss s (List.mem_cons_self _ _)))
  intro cs
  induction cs with
  | nil => intro _ idx h; exact h
  | cons c rest ih =>
    intro hcs idx h
    exact ih (fun d hd => hcs d (List.mem_cons_of_mem _ hd)) _
      (hsrc c (hcs c (List.mem_cons_self _ _)) c.metaSources (fun x hx => hx) idx h)

/-- The coverage property: some index entry carries this path and a category
of this name. -/
def coversEntry (p nm : String) (idx : List MetaIndexEntry) : Prop :=
  ∃ e ∈ idx, e.path = p ∧ ∃ d ∈ e.cats, d.name = nm

theorem insertMetaSource_covers_pres {p nm : String} {idx : List MetaIndexEntry}
    {c : Cat} {s : Source} (h : coversEntry p nm idx) :
    coversEntry p nm (insertMetaSource idx c s) := by
  rcases h with ⟨e, he, hp, d, hd, hdn⟩
  unfold insertMetaSource
  split
  · refine ⟨_, List.mem_map_of_mem _ he, ?_⟩
    by_cases hps : e.path = s.path
    · rw [if_pos hps]
      refine ⟨hps ▸ hp, ?_⟩
      show ∃ d' ∈ (if e.cats.any (fun d => d.name = c.name) then e.cats
        else e.cats ++ [c]), d'.name = nm
      split
      · exact ⟨d, hd, hdn⟩
      · exact ⟨d, List.mem_append_left _ hd, hdn⟩
    · rw [if_neg hps]
      exact ⟨hp, d, hd, hdn⟩
  · exact ⟨e, List.mem_append_left _ he, hp, d, hd, hdn⟩

theorem insertMetaSource_covers_est (idx : List MetaIndexEntry) (c : Cat) (s : Source) :
    coversEntry s.path c.name (insertMetaSource idx c s) := by
  unfold insertMetaSource
  split
  next hany =>
    rcases List.any_eq_true.mp hany with ⟨x, hx, hxp⟩
    have hxp' : x.path = s.path := by simpa using hxp
    refine ⟨_, List.mem_map_of_mem _ hx, ?_⟩
    rw [if_pos hxp']
    refine ⟨hxp', ?_⟩
    show ∃ d' ∈ (if x.cats.any (fun d => d.name = c.name) then x.cats
      else x.cats ++ [c]), d'.name = c.name
    split
    next hin =>
      rcases List.any_eq_true.mp hin with ⟨d, hd, hdn⟩
      exact ⟨d, hd, by simpa using hdn⟩
    next => exact ⟨c, List.mem_append_right _ (List.mem_singleton_self _), rfl⟩
  · exact ⟨⟨s.path, s, [c]⟩, List.mem_append_right _ (List.mem_singleton_self _), rfl,
      c, List.mem_singleton_self _, rfl⟩

theorem buildMetaIndex_covers {cats : List Cat} {c : Cat} {s : Source}
    (hc : c ∈ cats) (hsc : s ∈ c.metaSources) :
    coversEntry s.path c.name (buildMetaIndex cats) := by
  unfold buildMetaIndex
  have hpresS : ∀ (c' : Cat) (ss : List Source) (idx : List MetaIndexEntry),
      coversEntry s.path c.name idx →
      coversEntry s.path c.name (ss.foldl (fun j s' => insertMetaSource j c' s') idx) := by
    intro c' ss
    induction ss with
    | nil => intro idx h; exact h
    | cons x rest ih => intro idx h; exact ih _ (insertMetaSource_covers_pres h)
  have hpresC : ∀ (cs : List Cat) (idx : List MetaIndexEntry),
      coversEntry s.path c.name idx →
      coversEntry s.path c.name (cs.foldl
        (fun j c' => c'.metaSources.foldl (fun j s' => insertMetaSource j c' s') j) idx) := by
    intro cs
    induction cs with
    | nil => intro idx h; exact h
    | cons d rest ih => intro idx h; exact ih _ (hpresS d d.metaSources idx h)
  rcases List.append_of_mem hc with ⟨C₁, C₂, hcats⟩
  rw [hcats, List.foldl_append, List.foldl_cons]
  apply hpresC
  rcases List.append_of_mem hsc with ⟨S₁, S₂, hss⟩
  rw [hss, List.foldl_append, List.foldl_cons]
  apply hpresS
  exact insertMetaSource_covers_est _ c s

theorem foldl_update_other {c : Cat}
    (g : List (String × List (String × MetaItem)) → Cat → List (String × MetaItem)) :
    ∀ (cs : List Cat) (pr : List (String × List (String × MetaItem))),
      (∀ d ∈ cs, d.name ≠ c.name) →
      getMap (cs.foldl (fun pr d => updateAssoc pr d.name (g pr d)) pr) c.name =
        getMap pr c.name := by
  intro cs
  induction cs with
  | nil => intro pr _; rfl
  | cons d rest ih =>
    intro pr h
    rw [List.foldl_cons, ih _ (fun x hx => h x (List.mem_cons_of_mem _ hx)),
      getMap_updateAssoc, if_neg (fun hh => h d (List.mem_cons_self _ _) hh.symm)]

theorem foldl_update_self {c : Cat} {a₁ a₂ : List Cat}
    (g : List (String × List (String × MetaItem)) → Cat → List (String × MetaItem))
    (h₂ : ∀ d ∈ a₂, d.name ≠ c.name)
    (pr : List (String × List (String × MetaItem))) :
    getMap ((a₁ ++ c :: a₂).foldl (fun pr d => updateAssoc pr d.name (g pr d)) pr) c.name =
      g (a₁.foldl (fun pr d => updateAssoc pr d.name (g pr d)) pr) c := by
  rw [List.foldl_append, List.foldl_cons, foldl_update_other g a₂ _ h₂,
    getMap_updateAssoc, if_pos rfl]

theorem metaPhaseStep_other {P : ℕ} {mstreams : String → List MetaItem}
    {st : MetaPhaseState} {e : MetaIndexEntry} {c : Cat}
    (hno : ∀ d ∈ e.cats, d.name ≠ c.name) :
    getMap (metaPhaseStep P mstreams st e).products c.name =
      getMap st.products c.name := by
  unfold metaPhaseStep
  split
  · rfl
  · exact foldl_update_other _ _ _
      (fun d hd => hno d (List.mem_of_mem_filter hd))

theorem foldl_updateAssoc_fresh {α : Type _} :
    ∀ (l : List (String × α)) (acc : List (String × α)),
      (∀ e ∈ l, acc.any (fun x => x.1 = e.1) = false) →
      (l.map (fun e => e.1)).Nodup →
      l.foldl (fun a e => updateAssoc a e.1 e.2) acc = acc ++ l
  | [], acc, _, _ => (List.append_nil acc).symm
  | e :: rest, acc, hfresh, hnd => by
    rw [List.foldl_cons]
    have hup : updateAssoc acc e.1 e.2 = acc ++ [e] := by
      unfold updateAssoc
      rw [if_neg (by rw [hfresh e (List.mem_cons_self _ _)]; exact Bool.false_ne_true)]
    rw [hup, foldl_updateAssoc_fresh rest (acc ++ [e]) ?_ ?_, List.append_assoc,
      List.singleton_append]
    · intro f hf
      rw [List.any_append]
      rw [List.map_cons, List.nodup_cons] at hnd
      have h1 := hfresh f (List.mem_cons_of_mem _ hf)
      have h2 : ([e].any (fun x => x.1 = f.1)) = false := by
        by_cases hq : e.1 = f.1
        · exact absurd (hq ▸ List.mem_map_of_mem (fun e => e.1) hf) hnd.1
        · simp [hq]
      rw [h1, h2]
      rfl
    · rw [List.map_cons, List.nodup_cons] at hnd
      exact hnd.2

theorem map_split {α β : Type _} (g : α → β) {l₁ l₂ : List α} {c : α}
    (hnd : ((l₁ ++ c :: l₂).map g).Nodup) :
    (∀ d ∈ l₁, g d ≠ g c) ∧ (∀ d ∈ l₂, g d ≠ g c) := by
  rw [List.map_append, List.map_cons] at hnd
  constructor
  · intro d hd heq
    exact List.disjoint_of_nodup_append hnd (List.mem_map_of_mem _ hd)
      (heq ▸ List.mem_cons_self _ _)
  · intro d hd heq
    have h := (List.nodup_append.mp hnd).2.1
    rw [List.nodup_cons] at h
    exact h.1 (heq ▸ List.mem_map_of_mem _ hd)

theorem foldl_phase_other {P : ℕ} {mstreams : String → List MetaItem} {c : Cat} :
    ∀ (entries : List MetaIndexEntry) (st : MetaPhaseState),
      (∀ f ∈ entries, ∀ d ∈ f.cats, d.name ≠ c.name) →
      getMap ((entries.foldl (metaPhaseStep P mstreams) st)).products c.name =
        getMap st.products c.name
  | [], _, _ => rfl
  | f :: rest, st, h => by
    rw [List.foldl_cons,
      foldl_phase_other rest _ (fun x hx => h x (List.mem_cons_of_mem _ hx)),
      metaPhaseStep_other (h f (List.mem_cons_self _ _))]

/-- After the metadata phase, a category with a single configured source
holding at least P distinct-keyed valid matching records is filled exactly to
capacity P. -/
theorem metaPhase_single_source_exact (cats : List Cat) (P : ℕ)
    (mstreams : String → List MetaItem) (c : Cat) (s : Source)
    (hnd : (cats.map Cat.name).Nodup) (hc : c ∈ cats) (hsrc : c.metaSources = [s])
    (hrich : P ≤ (dedupFrom [] (matchRecords c (mstreams s.path))).length) :
    (getMap (metaPhase cats P mstreams).products c.name).length = P := by
  rcases Nat.eq_zero_or_pos P with hP | hP
  · rw [hP]
    exact Nat.le_zero.mp (hP ▸ metaPhase_bounded cats P mstreams c.name)
  have hinv := buildMetaIndex_inv cats
  have hsmem : s ∈ c.metaSources := hsrc ▸ List.mem_singleton_self s
  rcases buildMetaIndex_covers hc hsmem with ⟨estar, hestar, hpath, d, hd, hdn⟩
  have hdc : d = c :=
    List.inj_on_of_nodup_map hnd ((hinv estar hestar).1 d hd).1 hc hdn
  have hcE : c ∈ estar.cats := hdc ▸ hd
  have hOnly : ∀ e ∈ buildMetaIndex cats, ∀ d' ∈ e.cats, d'.name = c.name →
      e.path = s.path := by
    intro e he d' hd' hdn'
    have hd'c : d' = c :=
      List.inj_on_of_nodup_map hnd ((hinv e he).1 d' hd').1 hc hdn'
    have hmem := ((hinv e he).1 d' hd').2
    rw [hd'c, hsrc, List.map_singleton] at hmem
    exact List.mem_singleton.mp hmem
  have hpnd := buildMetaIndex_paths_nodup cats
  rcases List.append_of_mem hestar with ⟨I₁, I₂, hidx⟩
  have hsplit := map_split (fun f : MetaIndexEntry => f.path) (hidx ▸ hpnd)
  have hno₁ : ∀ f ∈ I₁, ∀ d' ∈ f.cats, d'.name ≠ c.name := by
    intro f hf d' hd' heq
    refine hsplit.1 f hf ?_
    show f.path = estar.path
    rw [hOnly f (hidx ▸ List.mem_append_left _ hf) d' hd' heq, hpath]
  have hno₂ : ∀ f ∈ I₂, ∀ d' ∈ f.cats, d'.name ≠ c.name := by
    intro f hf d' hd' heq
    refine hsplit.2 f hf ?_
    show f.path = estar.path
    rw [hOnly f (hidx ▸ List.mem_append_right _ (List.mem_cons_of_mem _ hf)) d' hd' heq,
      hpath]
  unfold metaPhase
  rw [hidx, List.foldl_append, List.foldl_cons, foldl_phase_other I₂ _ hno₂]
  have hinit : ∀ m, getMap ((MetaPhaseState.mk (cats.map (fun c => (c.name, []))) []) :
      MetaPhaseState).products m = [] := by
    intro m
    rw [show (MetaPhaseState.mk (cats.map (fun c => (c.name, []))) []).products =
      cats.map (fun c => (c.name, [])) from rfl, getMap_initNames]
  have h8 : getMap ((I₁.foldl (metaPhaseStep P mstreams)
      ⟨cats.map (fun c => (c.name, [])), []⟩)).products c.name = [] := by
    rw [foldl_phase_other I₁ _ hno₁]
    exact hinit c.name
  set st₁ := I₁.foldl (metaPhaseStep P mstreams) ⟨cats.map (fun c => (c.name, [])), []⟩ with hst₁
  have hcactive : c ∈ activeCats P st₁.products estar := by
    unfold activeCats
    refine List.mem_filter.mpr ⟨hcE, ?_⟩
    rw [h8]
    simpa using hP
  have hanodup : ((activeCats P st₁.products estar).map Cat.name).Nodup := by
    refine List.Nodup.sublist ?_ (hinv estar hestar).2
    exact List.Sublist.map Cat.name (List.filter_sublist _)
  unfold metaPhaseStep
  rw [if_neg (by
    intro hemp
    rw [List.isEmpty_iff] at hemp
    rw [hemp] at hcactive
    exact absurd hcactive (by simp))]
  rcases List.append_of_mem hcactive with ⟨a₁, a₂, hact⟩
  have hasplit := map_split Cat.name (hact ▸ hanodup)
  rw [show ((activeCats P st₁.products estar).foldl (fun pr c =>
      updateAssoc pr c.name
        (mergeCat P (getMap (entryBatch P mstreams st₁.products estar).results c.name)
          (getMap pr c.name))) st₁.products) =
    ((a₁ ++ c :: a₂).foldl (fun pr c =>
      updateAssoc pr c.name
        (mergeCat P (getMap (entryBatch P mstreams st₁.products estar).results c.name)
          (getMap pr c.name))) st₁.products) by rw [← hact]]
  rw [foldl_update_self _ (fun d hd => hasplit.2 d hd) st₁.products,
    foldl_update_other _ a₁ _ (fun d hd => hasplit.1 d hd), h8]
  have hbatch : getMap (entryBatch P mstreams st₁.products estar).results c.name =
      (dedupFrom [] (matchRecords c (mstreams s.path))).take P := by
    unfold entryBatch
    have hlim : P - (getMap st₁.products c.name).length = P := by
      rw [h8]
      simp
    rw [pass_char (activeCats P st₁.products estar) c
      (fun n => P - (getMap st₁.products n).length) hcactive hanodup
      (by show 1 ≤ P - (getMap st₁.products c.name).length
          rw [h8]
          simp only [List.length_nil, Nat.sub_zero]
          omega),
      hlim, hpath]
  rw [hbatch]
  set X := dedupFrom [] (matchRecords c (mstreams s.path)) with hX
  have hlenX : (X.take P).length = P := by
    rw [List.length_take]
    omega
  unfold mergeCat
  rw [List.length_nil, Nat.sub_zero, List.take_of_length_le (le_of_eq hlenX),
    foldl_updateAssoc_fresh (X.take P) [] (fun e _ => rfl) ?_, List.nil_append]
  · exact hlenX
  · refine List.Nodup.sublist ?_ (dedupFrom_keys_nodup (matchRecords c (mstreams s.path)) [] (by simp))
    exact List.Sublist.map _ (List.take_sublist _ _)

/-- Category fixture with a duplicate-key source, for the capacity
counterexample. -/
def cDup : Cat :=
  ⟨"Widgets", [⟨"json", "px"⟩], [⟨"json", "qx"⟩], ["widget"]⟩

/-- A metadata stream with two valid matching records that share one parent
key. -/
def dupStream : String → List MetaItem := fun p =>
  if p = "px" then
    [⟨some "Blue Widget", some "$5.00", some "X", [], [], [], none, none, none⟩,
     ⟨some "Red Widget", some "$7.00", some "X", [], [], [], none, none, none⟩]
  else []

/-- Counterexample to C5 as stated: the single source holds two valid records
matching the category (at least products_per_category = 2 of them), yet the
collected map holds one entry, because both records carry the same parent key
and the map deduplicates by key. -/
theorem capacity_equality_counterexample :
    ((dupStream "px").countP (fun item => validMatch cDup item)) = 2 ∧
    (getMap (runPipeline [cDup] 2 2 dupStream (fun _ => [])).products "Widgets").length
      = 1 := by
  decide

/-- C5 (amended): the collected map of every category stays within
products_per_category, both inside any pass invoked with a positive limit and
after the whole phase; and the map is filled exactly to capacity whenever the
category has a single configured metadata source holding at least
products_per_category valid matching records with pairwise distinct parent
keys (duplicate keys collapse into one entry, and a later source may rewrite
an already collected key rather than add one, which is why the hypothesis
names one source and distinct keys). -/
theorem capacity_bound_and_exact (cats : List Cat) (P R : ℕ)
    (mstreams : String → List MetaItem) (rstreams : String → List ReviewItem)
    (c : Cat) (s : Source) (cfgs : List Cat) (limits : String → ℕ)
    (stream : List MetaItem) (c' : Cat)
    (hnd : (cats.map Cat.name).Nodup) (hc : c ∈ cats) (hsrc : c.metaSources = [s])
    (hrich : P ≤ (dedupFrom [] (matchRecords c (mstreams s.path))).length)
    (hc' : c' ∈ cfgs) (hnd' : (cfgs.map Cat.name).Nodup) (hl : 1 ≤ limits c'.name) :
    (∀ n, (getMap (runPipeline cats P R mstreams rstreams).products n).length ≤ P) ∧
    (getMap (streamMetadataMulti cfgs limits stream).results c'.name).length ≤
      limits c'.name ∧
    (getMap (runPipeline cats P R mstreams rstreams).products c.name).length = P := by
  refine ⟨fun n => metaPhase_bounded cats P mstreams n, ?_, ?_⟩
  · rw [pass_char cfgs c' limits hc' hnd' hl stream, List.length_take]
    omega
  · exact metaPhase_single_source_exact cats P mstreams c s hnd hc hsrc hrich

/-- Witness for C5 on a concrete run that fills one category to capacity one. -/
theorem capacity_bound_and_exact_witness :
    (getMap (runPipeline [wCat] 1 2 wMStreams wRStreams).products "Gaming Mice").length
      ≤ 1 ∧
    (getMap (streamMetadataMulti [wCat] (fun _ => 1) [wMeta "A1"]).results
      "Gaming Mice").length ≤ 1 ∧
    (getMap (runPipeline [wCat] 1 2 wMStreams wRStreams).products "Gaming Mice").length
      = 1 := by
  have h := capacity_bound_and_exact [wCat] 1 2 wMStreams wRStreams wCat ⟨"json", "pm"⟩
    [wCat] (fun _ => 1) [wMeta "A1"] wCat (by decide) (by decide) rfl (by decide)
    (by decide) (by decide) (by decide)
  exact ⟨h.1 "Gaming Mice", h.2.1, h.2.2⟩

/-! Cross-source fallback in the review phase. -/

theorem mem_keys_updateAssoc {α : Type _} (l : List (String × α)) (k a : String) (v : α) :
    (a ∈ (updateAssoc l k v).map (fun e => e.1)) ↔
      a = k ∨ a ∈ l.map (fun e => e.1) := by
  unfold updateAssoc
  split
  next hany =>
    rw [List.map_map]
    constructor
    · intro h
      rcases List.mem_map.mp h with ⟨x, hx, hxa⟩
      by_cases hxk : x.1 = k
      · left
        rw [← hxa]
        simp [hxk]
      · right
        refine List.mem_map.mpr ⟨x, hx, ?_⟩
        rw [← hxa]
        simp [hxk]
    · intro h
      rcases h with rfl | h
      · rcases List.any_eq_true.mp hany with ⟨x, hx, hxk⟩
        refine List.mem_map.mpr ⟨x, hx, ?_⟩
        have : x.1 = a := by simpa using hxk
        simp [this]
      · rcases List.mem_map.mp h with ⟨x, hx, hxa⟩
        refine List.mem_map.mpr ⟨x, hx, ?_⟩
        by_cases hxk : x.1 = k
        · rw [← hxa]
          simp [hxk]
        · rw [← hxa]
          simp [hxk]
  next =>
    rw [List.map_append]
    simp only [List.mem_append, List.map_cons, List.map_nil, List.mem_singleton]
    constructor
    · rintro (h | h)
      · exact Or.inr h
      · exact Or.inl h
    · rintro (h | h)
      · exact Or.inr h
      · exact Or.inl h

theorem mem_keys_foldl_updateAssoc {α : Type _} :
    ∀ (batch : List (String × α)) (acc : List (String × α)) (a : String),
      (a ∈ (batch.foldl (fun ac kv => updateAssoc ac kv.1 kv.2) acc).map (fun e => e.1)) ↔
        a ∈ acc.map (fun e => e.1) ∨ a ∈ batch.map (fun e => e.1)
  | [], acc, a => by simp
  | kv :: rest, acc, a => by
    rw [List.foldl_cons, mem_keys_foldl_updateAssoc rest _ a, mem_keys_updateAssoc,
      List.map_cons, List.mem_cons]
    constructor
    · rintro ((h | h) | h)
      · exact Or.inr (Or.inl h)
      · exact Or.inl h
      · exact Or.inr (Or.inr h)
    · rintro (h | (h | h))
      · exact Or.inl (Or.inr h)
      · exact Or.inl (Or.inl h)
      · exact Or.inr h

/-- The parent keys a category requests reviews for. -/
def asinsOf (products : List (String × List (String × MetaItem))) (c : Cat) :
    Finset String :=
  ((getMap products c.name).map (fun e => e.1)).toFinset

/-- The keys for which the first review source returned at least one review. -/
def firstBatchKeys (rstreams : String → List ReviewItem) (s1 : Source)
    (A : Finset String) (R : ℕ) : Finset String :=
  ((fetchReviewsMulti (rstreams s1.path) A R maxScanDefault).map (fun kv => kv.1)).toFinset

theorem reviewPhaseStep_skip (R : ℕ) (rstreams : String → List ReviewItem)
    (rv : List (String × List ReviewItem)) (lg : List (String × Finset String))
    (e : ReviewIndexEntry) (h : neededSet e rv = ∅) :
    reviewPhaseStep R rstreams ⟨rv, lg⟩ e = ⟨rv, lg⟩ := by
  unfold reviewPhaseStep
  exact if_pos h

theorem reviewPhaseStep_go (R : ℕ) (rstreams : String → List ReviewItem)
    (rv : List (String × List ReviewItem)) (lg : List (String × Finset String))
    (e : ReviewIndexEntry) (h : neededSet e rv ≠ ∅) :
    reviewPhaseStep R rstreams ⟨rv, lg⟩ e =
      ⟨(fetchReviewsMulti (rstreams e.path) (neededSet e rv) R maxScanDefault).foldl
          (fun acc kv => updateAssoc acc kv.1 kv.2) rv,
        lg ++ [(e.path, neededSet e rv)]⟩ := by
  unfold reviewPhaseStep
  exact if_neg h

/-- A category with two review sources on distinct paths. -/
def nfCat : Cat :=
  ⟨"Gaming Mice", [⟨"json", "pm"⟩], [⟨"json", "q1"⟩, ⟨"json", "q2"⟩], ["mouse"]⟩

/-- Review streams: the first path holds one review for key X, the second holds
two more reviews for the same key. -/
def nfRStreams : String → List ReviewItem := fun p =>
  if p = "q1" then [wRev "X" true 3]
  else if p = "q2" then [wRev "X" false 1, wRev "X" false 2]
  else []

/-- A collected-metadata map carrying the single key X. -/
def nfProds : List (String × List (String × MetaItem)) :=
  [("Gaming Mice", [("X", wMeta "X")])]

/-- Counterexample to C2 as stated: with reviews_per_product = 2, key X holds
one review after source q1 — fewer than the cap, hence not fully satisfied —
and source q2 carries two further reviews for X, yet X is never offered to q2:
the phase log shows q2 is not invoked at all, because the needed-key
subtraction removes every key already holding at least one review, not only the
fully satisfied ones. -/
theorem cross_source_fallback_counterexample :
    (lookupReviews (reviewPhase [nfCat] 2 nfRStreams nfProds).reviews "X").length = 1 ∧
    (reviewPhase [nfCat] 2 nfRStreams nfProds).log =
      [("q1", ({"X"} : Finset String))] := by
  decide

/-- C2 (amended): cross-source review fallback for a category with two review
sources on distinct paths and a non-empty requested key set A. The phase
requests A from the first source; writing K for the keys the first source
returned at least one review for, a key in K — fully satisfied or not — is
never part of the second request, and the second source is invoked exactly
when a key of A received zero reviews, with precisely those zero-review keys
A \ K. In particular when the first source fully satisfies some keys and
leaves every other key with zero reviews, the second source is invoked with
exactly the remaining keys. -/
theorem cross_source_fallback (c : Cat) (s1 s2 : Source) (R : ℕ)
    (rstreams : String → List ReviewItem)
    (products : List (String × List (String × MetaItem)))
    (hs : c.reviewSources = [s1, s2]) (hp : s1.path ≠ s2.path)
    (hA : asinsOf products c ≠ ∅) :
    (reviewPhase [c] R rstreams products).log =
      (if asinsOf products c \ firstBatchKeys rstreams s1 (asinsOf products c) R = ∅ then
        [(s1.path, asinsOf products c)]
      else
        [(s1.path, asinsOf products c),
          (s2.path,
            asinsOf products c \ firstBatchKeys rstreams s1 (asinsOf products c) R)]) ∧
    (∀ k ∈ firstBatchKeys rstreams s1 (asinsOf products c) R,
      k ∉ asinsOf products c \ firstBatchKeys rstreams s1 (asinsOf products c) R) ∧
    ∀ k ∈ asinsOf products c,
      k ∉ firstBatchKeys rstreams s1 (asinsOf products c) R →
      k ∈ asinsOf products c \ firstBatchKeys rstreams s1 (asinsOf products c) R := by
  have h1 : insertReviewSource [] (asinsOf products c) s1 =
      [⟨s1.path, s1, asinsOf products c⟩] := by
    unfold insertReviewSource
    have hc1 : ¬(List.any ([] : List ReviewIndexEntry)
        (fun e => e.path = s1.path) = true) := by simp
    rw [if_neg hc1]
    rfl
  have h2 : insertReviewSource [⟨s1.path, s1, asinsOf products c⟩]
      (asinsOf products c) s2 =
      [⟨s1.path, s1, asinsOf products c⟩, ⟨s2.path, s2, asinsOf products c⟩] := by
    unfold insertReviewSource
    have hc2 : ¬(List.any [(⟨s1.path, s1, asinsOf products c⟩ : ReviewIndexEntry)]
        (fun e => e.path = s2.path) = true) := by simp [hp]
    rw [if_neg hc2]
    rfl
  have hidx : buildReviewIndex [c] products =
      [⟨s1.path, s1, asinsOf products c⟩, ⟨s2.path, s2, asinsOf products c⟩] := by
    unfold buildReviewIndex
    rw [List.foldl_cons, List.foldl_nil]
    show c.reviewSources.foldl
        (fun j s => insertReviewSource j (asinsOf products c) s) [] = _
    rw [hs]
    show insertReviewSource (insertReviewSource [] (asinsOf products c) s1)
        (asinsOf products c) s2 = _
    rw [h1, h2]
  have hneed1 : neededSet ⟨s1.path, s1, asinsOf products c⟩ [] =
      asinsOf products c := by
    unfold neededSet
    simp
  have hmemkeys : ∀ a : String,
      a ∈ (((fetchReviewsMulti (rstreams s1.path) (asinsOf products c) R
          maxScanDefault).foldl (fun acc kv => updateAssoc acc kv.1 kv.2)
          ([] : List (String × List ReviewItem))).map (fun kv => kv.1)).toFinset ↔
        a ∈ firstBatchKeys rstreams s1 (asinsOf products c) R := by
    intro a
    unfold firstBatchKeys
    rw [List.mem_toFinset, List.mem_toFinset, mem_keys_foldl_updateAssoc]
    simp
  have hneed2 : neededSet ⟨s2.path, s2, asinsOf products c⟩
      ((fetchReviewsMulti (rstreams s1.path) (asinsOf products c) R
        maxScanDefault).foldl (fun acc kv => updateAssoc acc kv.1 kv.2) []) =
      asinsOf products c \ firstBatchKeys rstreams s1 (asinsOf products c) R := by
    unfold neededSet
    apply Finset.ext
    intro a
    rw [Finset.mem_sdiff, Finset.mem_sdiff, hmemkeys a]
  have hstep1 : reviewPhaseStep R rstreams ⟨[], []⟩ ⟨s1.path, s1, asinsOf products c⟩ =
      ⟨(fetchReviewsMulti (rstreams s1.path) (asinsOf products c) R
          maxScanDefault).foldl (fun acc kv => updateAssoc acc kv.1 kv.2) [],
        [(s1.path, asinsOf products c)]⟩ := by
    rw [reviewPhaseStep_go R rstreams [] [] ⟨s1.path, s1, asinsOf products c⟩
      (by rw [hneed1]; exact hA)]
    rw [hneed1]
    rfl
  refine ⟨?_, ?_, ?_⟩
  · unfold reviewPhase
    rw [hidx, List.foldl_cons, List.foldl_cons, List.foldl_nil, hstep1]
    by_cases hK : asinsOf products c \
        firstBatchKeys rstreams s1 (asinsOf products c) R = ∅
    · rw [if_pos hK]
      rw [reviewPhaseStep_skip R rstreams
        ((fetchReviewsMulti (rstreams s1.path) (asinsOf products c) R
          maxScanDefault).foldl (fun acc kv => updateAssoc acc kv.1 kv.2) [])
        [(s1.path, asinsOf products c)]
        ⟨s2.path, s2, asinsOf products c⟩
        (by rw [hneed2]; exact hK)]
    · rw [if_neg hK]
      rw [reviewPhaseStep_go R rstreams
        ((fetchReviewsMulti (rstreams s1.path) (asinsOf products c) R
          maxScanDefault).foldl (fun acc kv => updateAssoc acc kv.1 kv.2) [])
        [(s1.path, asinsOf products c)]
        ⟨s2.path, s2, asinsOf products c⟩
        (by rw [hneed2]; exact hK)]
      rw [hneed2]
      rfl
  · intro k hk
    rw [Finset.mem_sdiff]
    rintro ⟨-, hnk⟩
    exact hnk hk
  · intro k hk hnk
    exact Finset.mem_sdiff.mpr ⟨hk, hnk⟩

/-- A category with two review sources, used for the spec scenario. -/
def scCat : Cat :=
  ⟨"Gaming Mice", [⟨"json", "pm"⟩], [⟨"json", "r1"⟩, ⟨"json", "r2"⟩], ["mouse"]⟩

/-- Five requested keys in one category map. -/
def scProds : List (String × List (String × MetaItem)) :=
  [("Gaming Mice",
    [("k1", wMeta "k1"), ("k2", wMeta "k2"), ("k3", wMeta "k3"),
     ("k4", wMeta "k4"), ("k5", wMeta "k5")])]

/-- Review streams realizing the spec scenario: the first source fully
satisfies k1, k2, k3 at cap one and returns nothing for k4, k5. -/
def scRStreams : String → List ReviewItem := fun p =>
  if p = "r1" then [wRev "k1" true 1, wRev "k2" true 1, wRev "k3" true 1]
  else if p = "r2" then [wRev "k4" true 1, wRev "k5" true 1]
  else []

/-- Witness for the amended C2 on the spec scenario: the first source fully
satisfies 3 of 5 keys and the second source is invoked with exactly the
remaining 2 keys. -/
theorem cross_source_fallback_witness :
    (reviewPhase [scCat] 1 scRStreams scProds).log =
      [("r1", ({"k1", "k2", "k3", "k4", "k5"} : Finset String)),
       ("r2", ({"k4", "k5"} : Finset String))] := by
  have h := cross_source_fallback scCat ⟨"json", "r1"⟩ ⟨"json", "r2"⟩ 1 scRStreams
    scProds rfl (by decide) (by decide)
  rw [h.1]
  decide

end Shopper
